import Mathlib

/-!
Verification development for the STK `ParallelComm.hpp` communication
substrate: the `CommBuffer` typed serialization buffer and the
`parallel_data_exchange` protocol variants.

Modelling conventions of the shallow embedding:
* buffer memory is a `List Nat` of byte values; pointers are offsets
  from the buffer base (`m_beg`), so `m_ptr - m_beg` is a `Nat`;
* an unbacked buffer (`m_beg == nullptr`, sizing mode) has `backed = false`
  and an empty `data` list;
* `sizeof(size_t) = 8` and `sizeof(unsigned) = 4` (LP64 platform model);
* overflow conditions (`pack_overflow`, `unpack_overflow` throwing) are
  `Except` errors;
* MPI calls made by the exchange templates are recorded as events in a
  trace; memory touches of the buffer primitives are likewise recorded
  as `MemEvent`s where the order of access versus bounds check matters.
-/

namespace ParallelComm

/-- Alignment pad of `CommBufferAlign<N>::align`: `i %= N ; return i ? (N - i) : 0`.
The `CommBufferAlign<1>` specialization returns `0`, which agrees with the
generic formula at `N = 1` (since `i % 1 = 0`). -/
def commBufferAlign (N i : Nat) : Nat :=
  let r := i % N
  if r = 0 then 0 else N - r

/-- Overwrite the bytes of `data` starting at offset `p` with `ins`. -/
def splice (data : List Nat) (p : Nat) (ins : List Nat) : List Nat :=
  data.take p ++ ins ++ data.drop (p + ins.length)

/-- Read `n` bytes of `data` starting at offset `p`. -/
def slice (data : List Nat) (p n : Nat) : List Nat :=
  (data.drop p).take n

/-- Little-endian object representation of an unsigned integer value `n`
stored in `w` bytes. -/
def natToBytes : Nat → Nat → List Nat
  | 0, _ => []
  | w + 1, n => n % 256 :: natToBytes w (n / 256)

/-- Integer value of a little-endian byte list. -/
def bytesToNat : List Nat → Nat
  | [] => 0
  | b :: bs => b + 256 * bytesToNat bs

/-- Errors thrown by `CommBuffer::pack_overflow` / `CommBuffer::unpack_overflow`. -/
inductive CommErr
  | packOverflow
  | unpackOverflow
  deriving DecidableEq, Repr

/-- `stk::CommBuffer`, with members `m_beg`, `m_ptr`, `m_end` modelled as:
`backed` is `m_beg != nullptr`; `data` is the content of `[m_beg, m_end)`
(empty when unbacked, so `capacity = data.length` matches `m_end - m_beg`);
`m_ptr` is the cursor offset `m_ptr - m_beg`. -/
structure CommBuffer where
  backed : Bool
  data : List Nat
  m_ptr : Nat
  deriving DecidableEq, Repr

namespace CommBuffer
/-- `CommBuffer::reset()`: `m_ptr = m_beg`. -/
def reset (b : CommBuffer) : CommBuffer := { b with m_ptr := 0 }
/-- `CommBuffer::capacity()`: `m_end - m_beg`. -/
def capacity (b : CommBuffer) : Nat := b.data.length
/-- `CommBuffer::size()`: `m_ptr - m_beg`. -/
def size (b : CommBuffer) : Nat := b.m_ptr
/-- `CommBuffer::remaining()`: `m_end - m_ptr` as a signed quantity. -/
def remaining (b : CommBuffer) : Int := (b.data.length : Int) - (b.m_ptr : Int)
/-- `CommBuffer::buffer()`: the base pointer `m_beg`; `none` models `nullptr`. -/
def buffer (b : CommBuffer) : Option (List Nat) :=
  if b.backed then some b.data else none
/-- `CommBuffer::set_size(n)`:
`m_beg = nullptr; m_ptr = nullptr; m_ptr += n; m_end = nullptr;` —
the buffer loses its backing memory association and the cursor offset
becomes `n`. -/
def set_size (b : CommBuffer) (n : Nat) : CommBuffer :=
  { backed := false, data := [], m_ptr := n }
/-- `CommBuffer::pack(const T & value)` at the byte level; `bytes` is the
object representation of `value`, so `sizeof(T) = bytes.length`.
Transfer mode (`m_beg` non-null) checks `m_end < m_ptr + nalign + Size`
before zero-filling the pad and copying the value; sizing mode only
advances the cursor. -/
def pack (b : CommBuffer) (bytes : List Nat) : Except CommErr CommBuffer :=
  let S := bytes.length
  let nalign := commBufferAlign S b.m_ptr
  if b.backed then
    if b.data.length < b.m_ptr + nalign + S then .error .packOverflow
    else .ok { b with data := splice b.data b.m_ptr (List.replicate nalign 0 ++ bytes),
                      m_ptr := b.m_ptr + nalign + S }
  else .ok { b with m_ptr := b.m_ptr + nalign + S }
/-- `CommBuffer::pack(const T * value, size_t number)` at the byte level;
`S = sizeof(T)` and `bytes` is the concatenated representation of the
`number` array elements (`bytes.length = number * S`). -/
def packPtr (b : CommBuffer) (S number : Nat) (bytes : List Nat) : Except CommErr CommBuffer :=
  let nalign := commBufferAlign S b.m_ptr
  if b.backed then
    if b.data.length < b.m_ptr + nalign + number * S then .error .packOverflow
    else .ok { b with data := splice b.data b.m_ptr (List.replicate nalign 0 ++ bytes),
                      m_ptr := b.m_ptr + nalign + number * S }
  else .ok { b with m_ptr := b.m_ptr + nalign + number * S }
/-- `CommBuffer::unpack(T & value)` at the byte level: the value is read at
`m_ptr + nalign`, the cursor advances past it, and only then is
`m_end < m_ptr` checked (`unpackEvents` below records that order). -/
def unpack (b : CommBuffer) (S : Nat) : Except CommErr (List Nat × CommBuffer) :=
  let nalign := commBufferAlign S b.m_ptr
  let start := b.m_ptr + nalign
  if b.data.length < start + S then .error .unpackOverflow
  else .ok (slice b.data start S, { b with m_ptr := start + S })
/-- `CommBuffer::unpack(T * value, size_t number)` at the byte level. -/
def unpackPtr (b : CommBuffer) (S number : Nat) : Except CommErr (List Nat × CommBuffer) :=
  let nalign := commBufferAlign S b.m_ptr
  let start := b.m_ptr + nalign
  if b.data.length < start + number * S then .error .unpackOverflow
  else .ok (slice b.data start (number * S), { b with m_ptr := start + number * S })
end CommBuffer

/-- Memory accesses performed by a buffer primitive, in program order.
`fail` marks the overflow/underflow signal. -/
inductive MemEvent
  | read (off len : Nat)
  | write (off len : Nat)
  | fail
  deriving DecidableEq, Repr

namespace CommBuffer
/-- Memory events of `CommBuffer::unpack(T&)`, in source order:
`T * tmp = reinterpret_cast<T*>( m_ptr + nalign ); value = *tmp ;` performs
the read, the cursor advances, and only afterwards does
`if ( m_end < m_ptr ) { unpack_overflow(); }` signal the failure. -/
def unpackEvents (b : CommBuffer) (S : Nat) : List MemEvent :=
  let nalign := commBufferAlign S b.m_ptr
  let start := b.m_ptr + nalign
  .read start S :: (if b.data.length < start + S then [.fail] else [])
/-- Memory events of `CommBuffer::unpack(T*, number)`: the copy loop runs
before the `m_end < m_ptr` check. -/
def unpackPtrEvents (b : CommBuffer) (S number : Nat) : List MemEvent :=
  let nalign := commBufferAlign S b.m_ptr
  let start := b.m_ptr + nalign
  .read start (number * S) :: (if b.data.length < start + number * S then [.fail] else [])
/-- Memory events of `CommBuffer::pack(const T&)`: transfer mode checks the
bound before writing pad and payload; sizing mode touches no memory. -/
def packEvents (b : CommBuffer) (bytes : List Nat) : List MemEvent :=
  let S := bytes.length
  let nalign := commBufferAlign S b.m_ptr
  if b.backed then
    if b.data.length < b.m_ptr + nalign + S then [.fail]
    else [.write b.m_ptr (nalign + S)]
  else []
/-- Memory events of `CommBuffer::pack(const T*, number)`. -/
def packPtrEvents (b : CommBuffer) (S number : Nat) : List MemEvent :=
  let nalign := commBufferAlign S b.m_ptr
  if b.backed then
    if b.data.length < b.m_ptr + nalign + number * S then [.fail]
    else [.write b.m_ptr (nalign + number * S)]
  else []
end CommBuffer

/-! ### Payload values and the template pack/unpack overload family
`CommBuffer::pack`/`unpack` are a family of template overloads resolved by
payload type: fixed-size scalars, `std::string`, `std::pair`, `std::map`,
`std::vector`.  `PayloadVal` is the value universe, `PayloadTy` the type
universe directing `unpack`.  A `std::map` value is its entry list in
iteration order (keys pairwise distinct, as in any `std::map`). -/
inductive PayloadVal
  | scalar (bytes : List Nat)
  | str (chars : List Nat)
  | pairV (fst snd : PayloadVal)
  | mapV (entries : List (PayloadVal × PayloadVal))
  | vec (elems : List PayloadVal)
  deriving Repr

inductive PayloadTy
  | scalar (S : Nat)
  | str
  | pairT (t1 t2 : PayloadTy)
  | mapT (kt vt : PayloadTy)
  | vec (t : PayloadTy)
  deriving DecidableEq, Repr

mutual
/-- Structural equality test on payload values (used to model the key lookup
performed by `value[key] = val` during `std::map` unpacking). -/
def pvBeq : PayloadVal → PayloadVal → Bool
  | .scalar a, .scalar b => a == b
  | .str a, .str b => a == b
  | .pairV a b, .pairV c d => pvBeq a c && pvBeq b d
  | .mapV es, .mapV fs => pvEntriesBeq es fs
  | .vec es, .vec fs => pvListBeq es fs
  | _, _ => false
def pvEntriesBeq : List (PayloadVal × PayloadVal) → List (PayloadVal × PayloadVal) → Bool
  | [], [] => true
  | kv :: r1, lw :: r2 => pvBeq kv.1 lw.1 && pvBeq kv.2 lw.2 && pvEntriesBeq r1 r2
  | _, _ => false
def pvListBeq : List PayloadVal → List PayloadVal → Bool
  | [], [] => true
  | a :: r1, b :: r2 => pvBeq a b && pvListBeq r1 r2
  | _, _ => false
end

/-- `value[key] = val` on a `std::map` modelled as its entry list in
iteration order: an existing key is overwritten in place, a fresh key is
inserted.  During unpacking, entries arrive in the packed map's iteration
order, so a fresh (comparator-larger) key lands at the end of the list. -/
def mapInsert (m : List (PayloadVal × PayloadVal)) (k v : PayloadVal) :
    List (PayloadVal × PayloadVal) :=
  if m.any (fun kv => pvBeq kv.1 k) then
    m.map (fun kv => if pvBeq kv.1 k then (k, v) else kv)
  else m ++ [(k, v)]

mutual
/-- The recursive `CommBuffer::pack` overload family: a string packs its
`size_t` length then its raw characters; a pair packs `first` then `second`;
a map packs its `size_t` entry count then each key and value in iteration
order; a vector packs its element count as `unsigned` then each element. -/
def packVal : PayloadVal → CommBuffer → Except CommErr CommBuffer
  | .scalar bytes, b => b.pack bytes
  | .str chars, b => do
      let b ← b.pack (natToBytes 8 chars.length)
      b.packPtr 1 chars.length chars
  | .pairV x y, b => do
      let b ← packVal x b
      packVal y b
  | .mapV es, b => do
      let b ← b.pack (natToBytes 8 es.length)
      packEntries es b
  | .vec es, b => do
      let b ← b.pack (natToBytes 4 es.length)
      packElems es b
def packEntries : List (PayloadVal × PayloadVal) → CommBuffer → Except CommErr CommBuffer
  | [], b => .ok b
  | kv :: rest, b => do
      let b ← packVal kv.1 b
      let b ← packVal kv.2 b
      packEntries rest b
def packElems : List PayloadVal → CommBuffer → Except CommErr CommBuffer
  | [], b => .ok b
  | v :: rest, b => do
      let b ← packVal v b
      packElems rest b
end

mutual
/-- Byte string a pack of `v` lays down when the cursor starts at offset `p`
(alignment pads included).  `packVal` writes exactly this in transfer mode
and advances the cursor by its length in both modes. -/
def encVal : PayloadVal → Nat → List Nat
  | .scalar bytes, p => List.replicate (commBufferAlign bytes.length p) 0 ++ bytes
  | .str chars, p =>
      let e := List.replicate (commBufferAlign 8 p) 0 ++ natToBytes 8 chars.length
      e ++ chars
  | .pairV x y, p =>
      let e := encVal x p
      e ++ encVal y (p + e.length)
  | .mapV es, p =>
      let e := List.replicate (commBufferAlign 8 p) 0 ++ natToBytes 8 es.length
      e ++ encEntries es (p + e.length)
  | .vec es, p =>
      let e := List.replicate (commBufferAlign 4 p) 0 ++ natToBytes 4 es.length
      e ++ encElems es (p + e.length)
def encEntries : List (PayloadVal × PayloadVal) → Nat → List Nat
  | [], _ => []
  | kv :: rest, p =>
      let e1 := encVal kv.1 p
      let e2 := encVal kv.2 (p + e1.length)
      e1 ++ e2 ++ encEntries rest (p + e1.length + e2.length)
def encElems : List PayloadVal → Nat → List Nat
  | [], _ => []
  | v :: rest, p =>
      let e := encVal v p
      e ++ encElems rest (p + e.length)
end

/-- Inner loop of `CommBuffer::unpack(std::vector<K>&)`:
`value.resize(num_items); for i: K val; unpack(val); value[i] = val;`. -/
def unpackVecLoop (f : CommBuffer → Except CommErr (PayloadVal × CommBuffer)) :
    Nat → List PayloadVal → CommBuffer → Except CommErr (List PayloadVal × CommBuffer)
  | 0, acc, b => .ok (acc, b)
  | n + 1, acc, b => do
      let (v, b) ← f b
      unpackVecLoop f n (acc ++ [v]) b

/-- Inner loop of `CommBuffer::unpack(std::map<K,V>&)`:
`for i < ns: K key; unpack(key); V val; unpack(val); value[key] = val;`. -/
def unpackMapLoop (fk fv : CommBuffer → Except CommErr (PayloadVal × CommBuffer)) :
    Nat → List (PayloadVal × PayloadVal) → CommBuffer →
    Except CommErr (List (PayloadVal × PayloadVal) × CommBuffer)
  | 0, acc, b => .ok (acc, b)
  | n + 1, acc, b => do
      let (k, b) ← fk b
      let (v, b) ← fv b
      unpackMapLoop fk fv n (mapInsert acc k v) b

/-- The recursive `CommBuffer::unpack` overload family, directed by the
payload type: mirrors `packVal` (string: `size_t` length then characters;
map: `size_t` count then key/value pairs inserted into a cleared map;
vector: `unsigned` count then elements). -/
def unpackVal : PayloadTy → CommBuffer → Except CommErr (PayloadVal × CommBuffer)
  | .scalar S, b => do
      let (bytes, b) ← b.unpack S
      .ok (.scalar bytes, b)
  | .str, b => do
      let (lenBytes, b) ← b.unpack 8
      let (chars, b) ← b.unpackPtr 1 (bytesToNat lenBytes)
      .ok (.str chars, b)
  | .pairT t1 t2, b => do
      let (x, b) ← unpackVal t1 b
      let (y, b) ← unpackVal t2 b
      .ok (.pairV x y, b)
  | .mapT kt vt, b => do
      let (nsBytes, b) ← b.unpack 8
      let (es, b) ← unpackMapLoop (unpackVal kt) (unpackVal vt) (bytesToNat nsBytes) [] b
      .ok (.mapV es, b)
  | .vec t, b => do
      let (nBytes, b) ← b.unpack 4
      let (es, b) ← unpackVecLoop (unpackVal t) (bytesToNat nBytes) [] b
      .ok (.vec es, b)
termination_by structural t => t

/-- Well-formed payload values of a given payload type: scalar object
representations have the scalar's (positive) size; element counts fit the
fixed-width count fields the source packs (`size_t` for strings and maps,
`unsigned` for vectors); map keys are pairwise distinct, as in any
`std::map`. -/
inductive WF : PayloadVal → PayloadTy → Prop
  | scalar {bytes : List Nat} {S : Nat} :
      bytes.length = S → 0 < S → WF (.scalar bytes) (.scalar S)
  | str {chars : List Nat} :
      chars.length < 2 ^ 64 → WF (.str chars) .str
  | pairV {x y : PayloadVal} {t1 t2 : PayloadTy} :
      WF x t1 → WF y t2 → WF (.pairV x y) (.pairT t1 t2)
  | mapV {es : List (PayloadVal × PayloadVal)} {kt vt : PayloadTy} :
      es.length < 2 ^ 64 →
      (∀ kv, kv ∈ es → WF kv.1 kt) →
      (∀ kv, kv ∈ es → WF kv.2 vt) →
      es.Pairwise (fun a b => a.1 ≠ b.1) →
      WF (.mapV es) (.mapT kt vt)
  | vec {es : List PayloadVal} {t : PayloadTy} :
      es.length < 2 ^ 32 →
      (∀ v, v ∈ es → WF v t) →
      WF (.vec es) (.vec t)

/-- An unbacked buffer with cursor offset `p` (sizing mode). -/
def sizingBuf (p : Nat) : CommBuffer := { backed := false, data := [], m_ptr := p }

/-! ### Claim C2: sizing/transfer equivalence for pack call sequences -/
/-- One `CommBuffer::pack` call: a scalar overload call or an array overload
call (`S = sizeof(T)`, `number` elements, `bytes` their representation). -/
inductive PackOp
  | scalar (bytes : List Nat)
  | arr (S number : Nat) (bytes : List Nat)
  deriving DecidableEq, Repr

def runPackOp (b : CommBuffer) : PackOp → Except CommErr CommBuffer
  | .scalar bytes => b.pack bytes
  | .arr S n bytes => b.packPtr S n bytes

def packOpEvents (b : CommBuffer) : PackOp → List MemEvent
  | .scalar bytes => b.packEvents bytes
  | .arr S n _ => b.packPtrEvents S n

/-- Run a sequence of pack calls left to right, stopping at the first
overflow. -/
def runPackOps (b : CommBuffer) : List PackOp → Except CommErr CommBuffer
  | [] => .ok b
  | op :: ops =>
      match runPackOp b op with
      | .error e => .error e
      | .ok b2 => runPackOps b2 ops

/-- Memory events of a sequence of pack calls. -/
def runPackOpsEvents (b : CommBuffer) : List PackOp → List MemEvent
  | [] => []
  | op :: ops =>
      packOpEvents b op ++
        (match runPackOp b op with
         | .error _ => []
         | .ok b2 => runPackOpsEvents b2 ops)

/-- Cursor advance (`pad + payload`) of one pack call from offset `p`. -/
def packOpAdvance (p : Nat) : PackOp → Nat
  | .scalar bytes => commBufferAlign bytes.length p + bytes.length
  | .arr S n _ => commBufferAlign S p + n * S

/-- Final cursor offset of a sizing run of `ops` starting at offset `p`. -/
def sizingSize (p : Nat) : List PackOp → Nat
  | [] => p
  | op :: ops => sizingSize (p + packOpAdvance p op) ops

/-- In the source, the array overload writes exactly `number * sizeof(T)`
bytes: `bytes` is the concatenated representation of the `number` elements. -/
def PackOp.wfOp : PackOp → Prop
  | .scalar _ => True
  | .arr S n bytes => bytes.length = n * S

instance : DecidablePred PackOp.wfOp := by
  intro op
  cases op <;> simp [PackOp.wfOp] <;> infer_instance

/-! ### The exchange engine variants, as transport-event traces
Each `parallel_data_exchange_*` template is modelled by the sequence of MPI
calls it makes on one rank.  Message payload bytes do not influence which
calls happen; element counts (and, for the unknown-size variant, the size
values delivered by the size-exchange round) do, so those are the model
inputs.  `cs` stands for `sizeof(T)` (`class_size`). -/
inductive CommEvent
  | irecv (proc bytes : Nat)
  | isend (proc bytes : Nat)
  | send (proc bytes : Nat)
  | barrier
  | waitRecv (idx : Nat)
  | unpackMsg (proc : Nat)
  | waitallSends
  | requireFail
  deriving DecidableEq, Repr

namespace CommEvent
def isIrecv : CommEvent → Bool
  | .irecv _ _ => true
  | _ => false
def isSendEv : CommEvent → Bool
  | .send _ _ => true
  | .isend _ _ => true
  | _ => false
end CommEvent

/-- The common loop shape of the four list/offset-based exchange variants:
one `MPI_Irecv` per active receive partner, one `MPI_Barrier`, one blocking
`MPI_Send` per active send partner, one `MPI_Wait` per active receive
partner — four source `for` loops over `iproc < num_procs` in sequence. -/
def exchangePhase (P : Nat) (sendAct recvAct : Nat → Bool)
    (sendBytes recvBytes : Nat → Nat) : List CommEvent :=
  ((List.range P).filterMap fun i =>
    if recvAct i then some (.irecv i (recvBytes i)) else none)
  ++ [.barrier]
  ++ ((List.range P).filterMap fun i =>
    if sendAct i then some (.send i (sendBytes i)) else none)
  ++ ((List.range P).filterMap fun i =>
    if recvAct i then some (.waitRecv i) else none)

/-- Data phase of `parallel_data_exchange_t` (lines 544-567):
`recv_lists[iproc]` is resized to `numToRecvFrom[iproc]` (= `recvCounts`),
messages are `size * sizeof(T)` raw bytes. -/
def parallel_data_exchange_t_data (P : Nat) (sendSizes recvCounts : List Nat)
    (cs : Nat) : List CommEvent :=
  exchangePhase P
    (fun i => 0 < sendSizes.getD i 0) (fun i => 0 < recvCounts.getD i 0)
    (fun i => sendSizes.getD i 0 * cs) (fun i => recvCounts.getD i 0 * cs)

/-- Trace of `parallel_data_exchange_t`: the `ThrowRequire` that `num_procs`
matches `send_lists.size()` and `recv_lists.size()` precedes every transport
call; then `ComputeReceiveList` runs (its definition lives outside this
header — `resolver` stands for its transport events and `recvCounts` for its
output `numToRecvFrom`), then the data phase. -/
def parallel_data_exchange_t_trace (P : Nat) (sendSizes recvInit recvCounts : List Nat)
    (resolver : List CommEvent) (cs : Nat) : List CommEvent :=
  if sendSizes.length = P ∧ recvInit.length = P then
    resolver ++ parallel_data_exchange_t_data P sendSizes recvCounts cs
  else [.requireFail]

/-- Trace of `parallel_data_exchange_sym_t` (lines 576-618): `recv_lists[i]`
is resized to `send_lists[i].size()`, so receive activity and sizes mirror
the send sizes; the source performs no precondition check at all. -/
def parallel_data_exchange_sym_t_trace (P : Nat) (sendSizes : List Nat)
    (cs : Nat) : List CommEvent :=
  exchangePhase P
    (fun i => 0 < sendSizes.getD i 0) (fun i => 0 < sendSizes.getD i 0)
    (fun i => sendSizes.getD i 0 * cs) (fun i => sendSizes.getD i 0 * cs)

/-- Trace of `parallel_data_exchange_nonsym_known_sizes_t` (lines 620-665):
per-rank counts are the differences of the prefix-sum offset arrays; no
precondition check exists (the offsets are raw pointers). -/
def parallel_data_exchange_nonsym_known_sizes_t_trace (P : Nat)
    (sendOffsets recvOffsets : List Nat) (cs : Nat) : List CommEvent :=
  exchangePhase P
    (fun i => 0 < sendOffsets.getD (i + 1) 0 - sendOffsets.getD i 0)
    (fun i => 0 < recvOffsets.getD (i + 1) 0 - recvOffsets.getD i 0)
    (fun i => (sendOffsets.getD (i + 1) 0 - sendOffsets.getD i 0) * cs)
    (fun i => (recvOffsets.getD (i + 1) 0 - recvOffsets.getD i 0) * cs)

/-- Size round of `parallel_data_exchange_sym_unknown_size_t` (lines
685-709): a 1-`int` (4-byte) size message; a receive is posted for `iproc`
iff `recv_lists[iproc]` is non-empty on entry, a send is issued iff
`send_lists[iproc]` is non-empty. -/
def sym_unknown_size_round (P : Nat) (sendSizes recvInit : List Nat) : List CommEvent :=
  exchangePhase P
    (fun i => 0 < sendSizes.getD i 0) (fun i => 0 < recvInit.getD i 0)
    (fun _ => 4) (fun _ => 4)

/-- `recv_lists[iproc].size()` after the size round: resized to the received
size value (`recvEnv`) when a size message was awaited, untouched otherwise. -/
def recvAfterResize (recvInit recvEnv : List Nat) (i : Nat) : Nat :=
  if 0 < recvInit.getD i 0 then recvEnv.getD i 0 else recvInit.getD i 0

/-- Data round of `parallel_data_exchange_sym_unknown_size_t` (lines
710-735), driven by the post-resize receive list sizes. -/
def sym_unknown_data_round (P : Nat) (sendSizes recvInit recvEnv : List Nat)
    (cs : Nat) : List CommEvent :=
  exchangePhase P
    (fun i => 0 < sendSizes.getD i 0)
    (fun i => 0 < recvAfterResize recvInit recvEnv i)
    (fun i => sendSizes.getD i 0 * cs)
    (fun i => recvAfterResize recvInit recvEnv i * cs)

/-- Trace of `parallel_data_exchange_sym_unknown_size_t`: the size round
followed by the data round. -/
def parallel_data_exchange_sym_unknown_size_t_trace (P : Nat)
    (sendSizes recvInit recvEnv : List Nat) (cs : Nat) : List CommEvent :=
  sym_unknown_size_round P sendSizes recvInit
  ++ sym_unknown_data_round P sendSizes recvInit recvEnv cs

/-- Trace of `parallel_data_exchange_sym_pack_unpack` (lines 739-783): a
single loop over the partner list posts, for each partner in order, one
`MPI_Irecv` and one non-blocking `MPI_Isend` (both unconditionally, with
`recv_data[i]` resized to the packed send size, so both carry the same byte
count); no barrier is ever issued.  The completion loop waits in partner
order when `deterministic`, otherwise on whichever receive finishes first
(`arrival` is the index sequence `MPI_Waitany` reports); each iteration
invokes the unpack functor; finally `MPI_Waitall` completes all sends. -/
def parallel_data_exchange_sym_pack_unpack_trace (commProcs : List Nat)
    (packSize : Nat → Nat) (cs : Nat) (deterministic : Bool)
    (arrival : List Nat) : List CommEvent :=
  ((List.range commProcs.length).flatMap fun i =>
    [.irecv (commProcs.getD i 0) (packSize (commProcs.getD i 0) * cs),
     .isend (commProcs.getD i 0) (packSize (commProcs.getD i 0) * cs)])
  ++ ((List.range commProcs.length).flatMap fun i =>
    if deterministic then [.waitRecv i, .unpackMsg (commProcs.getD i 0)]
    else [.waitRecv (arrival.getD i i), .unpackMsg (commProcs.getD (arrival.getD i i) 0)])
  ++ [.waitallSends]

/-! ### Claim C8: deterministic completion order in the functor variant -/
/-- Extract the partner of an unpack-functor invocation. -/
def unpackProcOf : CommEvent → Option Nat
  | .unpackMsg p => some p
  | _ => none

mutual
theorem pvBeq_sound : ∀ a b, pvBeq a b = true → a = b
  | .scalar x, .scalar y, h => by
      simp only [pvBeq, beq_iff_eq] at h; rw [h]
  | .str x, .str y, h => by
      simp only [pvBeq, beq_iff_eq] at h; rw [h]
  | .pairV a b, .pairV c d, h => by
      simp only [pvBeq, Bool.and_eq_true] at h
      rw [pvBeq_sound a c h.1, pvBeq_sound b d h.2]
  | .mapV es, .mapV fs, h => by
      rw [pvEntriesBeq_sound es fs (by simpa [pvBeq] using h)]
  | .vec es, .vec fs, h => by
      rw [pvListBeq_sound es fs (by simpa [pvBeq] using h)]
theorem pvEntriesBeq_sound : ∀ es fs, pvEntriesBeq es fs = true → es = fs
  | [], [], _ => rfl
  | kv :: r1, lw :: r2, h => by
      simp only [pvEntriesBeq, Bool.and_eq_true] at h
      have h1 := pvBeq_sound kv.1 lw.1 h.1.1
      have h2 := pvBeq_sound kv.2 lw.2 h.1.2
      have h3 := pvEntriesBeq_sound r1 r2 h.2
      cases kv; cases lw; simp_all
theorem pvListBeq_sound : ∀ es fs, pvListBeq es fs = true → es = fs
  | [], [], _ => rfl
  | a :: r1, b :: r2, h => by
      simp only [pvListBeq, Bool.and_eq_true] at h
      rw [pvBeq_sound a b h.1, pvListBeq_sound r1 r2 h.2]
end

/-! ### Claim C10: `set_size` semantics -/
/-- Claim C10: after `set_size(n)` the buffer is in the unbacked (sizing)
state — `buffer()` returns null, `capacity()` returns 0, `size()` returns
`n` — and any previously attached backing memory association is discarded. -/
theorem c10_set_size_unbacked (b : CommBuffer) (n : Nat) :
    (b.set_size n).buffer = none
    ∧ (b.set_size n).capacity = 0
    ∧ (b.set_size n).size = n
    ∧ (b.set_size n).backed = false :=
  ⟨rfl, rfl, rfl, rfl⟩

/-! ### Claim C7: alignment of `CommBufferAlign` -/
/-- Claim C7 counterexample: the claim says that for a fixed-size type of
size `S = 3` pack inserts no alignment padding and the cursor advances by
exactly `S` bytes.  In the source, `CommBufferAlign<N>::align` pads for
every `N` (only `N = 1` is special), so packing a 3-byte value with the
cursor at offset 1 inserts 2 pad bytes and advances the cursor to 6, not
to `1 + 3 = 4`. -/
theorem c7_size3_pad_counterexample :
    commBufferAlign 3 1 = 2
    ∧ CommBuffer.pack (sizingBuf 1) [10, 20, 30] = .ok (sizingBuf 6)
    ∧ (6 : Nat) ≠ 1 + 3 := by
  refine ⟨rfl, ?_, by decide⟩
  rfl

/-- Claim C7 amended: for every fixed-size type `T` of size `S > 0`, pack
aligns the cursor so the value starts at an offset that is a multiple of
`S` — the pad is `0` exactly when the offset is already a multiple of `S`
(in particular `S = 1` never pads); there is no size for which padding is
skipped.  A sizing-mode pack of a value of size `S` from offset `p`
advances the cursor to `p + pad + S`. -/
theorem c7_alignment_amended (S p : Nat) (bytes : List Nat)
    (hS : 0 < S) (hlen : bytes.length = S) :
    (p + commBufferAlign S p) % S = 0
    ∧ (commBufferAlign S p = 0 ↔ p % S = 0)
    ∧ CommBuffer.pack (sizingBuf p) bytes
        = .ok (sizingBuf (p + commBufferAlign S p + S)) := by
  have hr : p % S < S := Nat.mod_lt _ hS
  refine ⟨?_, ?_, ?_⟩
  · by_cases h : p % S = 0
    · simp [commBufferAlign, h, Nat.add_mod]
    · have hdm := Nat.div_add_mod p S
      have hm : S * (p / S + 1) = S * (p / S) + S := by ring
      have he : p + (S - p % S) = S * (p / S + 1) := by omega
      simp only [commBufferAlign]
      rw [if_neg h, he, Nat.mul_mod_right]
  · by_cases h : p % S = 0 <;> simp [commBufferAlign, h] <;> omega
  · simp [CommBuffer.pack, sizingBuf, hlen]

/-- Claim C7 amended, witness at `S = 4`, `p = 6`: the pad is 2 and the
packed value starts at offset 8, a multiple of 4. -/
theorem c7_alignment_amended_witness :
    (0 < 4 ∧ ([1, 2, 3, 4] : List Nat).length = 4)
    ∧ ((6 + commBufferAlign 4 6) % 4 = 0
       ∧ (commBufferAlign 4 6 = 0 ↔ 6 % 4 = 0)
       ∧ CommBuffer.pack (sizingBuf 6) [1, 2, 3, 4]
           = .ok (sizingBuf (6 + commBufferAlign 4 6 + 4))) :=
  ⟨⟨by decide, by decide⟩, c7_alignment_amended 4 6 [1, 2, 3, 4] (by decide) (by decide)⟩

/-! ### Claim C3: bounds check versus memory access on unpack -/
/-- Claim C3 counterexample: the claim says any unpack whose read would pass
`end` signals the failure before touching memory, so no out-of-bounds read
is ever performed.  On a backed 4-byte buffer, unpacking an 8-byte scalar
first reads 8 bytes at offset 0 — past the end of the 4-byte buffer — and
only then signals `unpack_overflow`: the out-of-bounds read happens, and it
precedes the failure signal. -/
theorem c3_read_before_check_counterexample :
    CommBuffer.unpackEvents ⟨true, [0, 0, 0, 0], 0⟩ 8 = [.read 0 8, .fail]
    ∧ (CommBuffer.unpackEvents ⟨true, [0, 0, 0, 0], 0⟩ 8).head? = some (.read 0 8)
    ∧ (⟨true, [0, 0, 0, 0], 0⟩ : CommBuffer).capacity < 0 + 8 := by
  refine ⟨rfl, rfl, by decide⟩

/-- Claim C3 amended: any unpack (scalar or array) whose read would advance
the cursor past `end` does signal `unpack_overflow` — but only after
performing the read; the source reads at `m_ptr + nalign`, advances the
cursor, and checks `m_end < m_ptr` afterwards, so the out-of-bounds read
precedes the failure signal. -/
theorem c3_unpack_overflow_amended (b : CommBuffer) (S n : Nat)
    (hs : b.capacity < b.m_ptr + commBufferAlign S b.m_ptr + S)
    (ha : b.capacity < b.m_ptr + commBufferAlign S b.m_ptr + n * S) :
    (b.unpack S = .error .unpackOverflow
      ∧ b.unpackEvents S = [.read (b.m_ptr + commBufferAlign S b.m_ptr) S, .fail])
    ∧ (b.unpackPtr S n = .error .unpackOverflow
      ∧ b.unpackPtrEvents S n
          = [.read (b.m_ptr + commBufferAlign S b.m_ptr) (n * S), .fail]) := by
  unfold CommBuffer.capacity at hs ha
  refine ⟨⟨?_, ?_⟩, ?_, ?_⟩ <;>
    simp [CommBuffer.unpack, CommBuffer.unpackPtr, CommBuffer.unpackEvents,
      CommBuffer.unpackPtrEvents, hs, ha]

/-- Claim C3 amended, witness: a backed 4-byte buffer and an 8-byte scalar
(and a 1-element 8-byte array). -/
theorem c3_unpack_overflow_amended_witness :
    ((⟨true, [0, 0, 0, 0], 0⟩ : CommBuffer).capacity
        < 0 + commBufferAlign 8 0 + 8
      ∧ (⟨true, [0, 0, 0, 0], 0⟩ : CommBuffer).capacity
        < 0 + commBufferAlign 8 0 + 1 * 8)
    ∧ ((CommBuffer.unpack ⟨true, [0, 0, 0, 0], 0⟩ 8 = .error .unpackOverflow
        ∧ CommBuffer.unpackEvents ⟨true, [0, 0, 0, 0], 0⟩ 8
            = [.read (0 + commBufferAlign 8 0) 8, .fail])
      ∧ (CommBuffer.unpackPtr ⟨true, [0, 0, 0, 0], 0⟩ 8 1 = .error .unpackOverflow
        ∧ CommBuffer.unpackPtrEvents ⟨true, [0, 0, 0, 0], 0⟩ 8 1
            = [.read (0 + commBufferAlign 8 0) (1 * 8), .fail])) :=
  ⟨⟨by decide, by decide⟩,
    c3_unpack_overflow_amended ⟨true, [0, 0, 0, 0], 0⟩ 8 1 (by decide) (by decide)⟩

theorem splice_length (data ins : List Nat) (p : Nat)
    (h : p + ins.length ≤ data.length) :
    (splice data p ins).length = data.length := by
  simp only [splice, List.length_append, List.length_take, List.length_drop]
  omega

theorem runPackOp_sizing (p : Nat) (op : PackOp) :
    runPackOp (sizingBuf p) op = .ok (sizingBuf (p + packOpAdvance p op)) := by
  cases op <;>
    simp [runPackOp, CommBuffer.pack, CommBuffer.packPtr, sizingBuf, packOpAdvance] <;>
    omega

theorem runPackOps_sizing (ops : List PackOp) : ∀ p,
    runPackOps (sizingBuf p) ops = .ok (sizingBuf (sizingSize p ops)) := by
  induction ops with
  | nil => intro p; rfl
  | cons op ops ih =>
      intro p
      simp [runPackOps, runPackOp_sizing, sizingSize, ih]

theorem sizingSize_le (ops : List PackOp) : ∀ p, p ≤ sizingSize p ops := by
  induction ops with
  | nil => intro p; exact Nat.le_refl p
  | cons op ops ih =>
      intro p
      exact Nat.le_trans (Nat.le_add_right _ _) (ih (p + packOpAdvance p op))

theorem runPackOpsEvents_sizing (ops : List PackOp) : ∀ p,
    runPackOpsEvents (sizingBuf p) ops = [] := by
  induction ops with
  | nil => intro p; rfl
  | cons op ops ih =>
      intro p
      have hop : packOpEvents (sizingBuf p) op = [] := by
        cases op <;>
          simp [packOpEvents, CommBuffer.packEvents, CommBuffer.packPtrEvents, sizingBuf]
      simp [runPackOpsEvents, hop, runPackOp_sizing, ih]

theorem runPackOp_transfer (p : Nat) (op : PackOp) (data : List Nat)
    (hwf : op.wfOp)
    (h : p + packOpAdvance p op ≤ data.length) :
    ∃ data2, data2.length = data.length
      ∧ runPackOp { backed := true, data := data, m_ptr := p } op
          = .ok { backed := true, data := data2, m_ptr := p + packOpAdvance p op } := by
  cases op with
  | scalar bytes =>
      simp only [packOpAdvance] at h
      refine ⟨splice data p (List.replicate (commBufferAlign bytes.length p) 0 ++ bytes),
        splice_length _ _ _ (by simp only [List.length_append, List.length_replicate]; omega),
        ?_⟩
      have hno : ¬ data.length < p + commBufferAlign bytes.length p + bytes.length := by
        omega
      simp [runPackOp, CommBuffer.pack, hno, packOpAdvance]
      omega
  | arr S n bytes =>
      simp only [packOpAdvance] at h
      simp only [PackOp.wfOp] at hwf
      refine ⟨splice data p (List.replicate (commBufferAlign S p) 0 ++ bytes), ?_, ?_⟩
      · exact splice_length _ _ _
          (by simp only [List.length_append, List.length_replicate]; omega)
      · have hno : ¬ data.length < p + commBufferAlign S p + n * S := by omega
        simp [runPackOp, CommBuffer.packPtr, hno, packOpAdvance]
        omega

theorem runPackOps_transfer (ops : List PackOp) : ∀ p data,
    (∀ op ∈ ops, op.wfOp) →
    sizingSize p ops ≤ data.length →
    ∃ data2, data2.length = data.length
      ∧ runPackOps { backed := true, data := data, m_ptr := p } ops
          = .ok { backed := true, data := data2, m_ptr := sizingSize p ops } := by
  induction ops with
  | nil =>
      intro p data _ _
      exact ⟨data, rfl, rfl⟩
  | cons op ops ih =>
      intro p data hwf hcap
      have hstep : p + packOpAdvance p op ≤ data.length :=
        Nat.le_trans (sizingSize_le ops (p + packOpAdvance p op)) hcap
      obtain ⟨data2, hlen, hrun⟩ :=
        runPackOp_transfer p op data (hwf op (List.mem_cons_self op ops)) hstep
      obtain ⟨data3, hlen3, hrun3⟩ :=
        ih (p + packOpAdvance p op) data2
          (fun o ho => hwf o (List.mem_cons_of_mem op ho)) (by rw [hlen]; exact hcap)
      exact ⟨data3, hlen3.trans hlen, by simp [runPackOps, hrun, hrun3, sizingSize]⟩

/-- Claim C2: for every sequence of pack calls, the total cursor advance
(`size()`) of a sizing run (unbacked buffer, `begin == null`) equals the
total cursor advance of the identical sequence run in transfer mode on a
backed buffer of sufficient capacity — and the sizing run performs no
memory access at all (its event trace is empty). -/
theorem c2_sizing_transfer_equivalence (ops : List PackOp) (data : List Nat) (q : Nat)
    (hwf : ∀ op ∈ ops, op.wfOp)
    (hq : runPackOps (sizingBuf 0) ops = .ok (sizingBuf q))
    (hcap : q ≤ data.length) :
    runPackOpsEvents (sizingBuf 0) ops = []
    ∧ ∃ data2, data2.length = data.length
        ∧ runPackOps { backed := true, data := data, m_ptr := 0 } ops
            = .ok { backed := true, data := data2, m_ptr := q } := by
  have hs := runPackOps_sizing ops 0
  rw [hq] at hs
  have hq2 : q = sizingSize 0 ops := by
    have := congrArg (fun r => match r with | .ok b => CommBuffer.m_ptr b | .error _ => 0) hs
    simpa [sizingBuf] using this
  subst hq2
  exact ⟨runPackOpsEvents_sizing ops 0, runPackOps_transfer ops 0 data hwf hcap⟩

/-- Claim C2 witness: two pack calls (a 2-byte scalar, then three 1-byte
array elements) sized to 5 bytes, replayed into a 5-byte backed buffer. -/
theorem c2_sizing_transfer_equivalence_witness :
    ((∀ op ∈ ([.scalar [1, 2], .arr 1 3 [7, 8, 9]] : List PackOp), op.wfOp)
      ∧ runPackOps (sizingBuf 0) [.scalar [1, 2], .arr 1 3 [7, 8, 9]] = .ok (sizingBuf 5)
      ∧ 5 ≤ (List.replicate 5 0).length)
    ∧ (runPackOpsEvents (sizingBuf 0) [.scalar [1, 2], .arr 1 3 [7, 8, 9]] = []
      ∧ ∃ data2, data2.length = (List.replicate 5 0).length
          ∧ runPackOps { backed := true, data := List.replicate 5 0, m_ptr := 0 }
              [.scalar [1, 2], .arr 1 3 [7, 8, 9]]
              = .ok { backed := true, data := data2, m_ptr := 5 }) :=
  ⟨⟨by decide, rfl, by decide⟩,
    c2_sizing_transfer_equivalence [.scalar [1, 2], .arr 1 3 [7, 8, 9]]
      (List.replicate 5 0) 5 (by decide) rfl (by decide)⟩

theorem mem_guard_filterMap (P : Nat) (act : Nat → Bool) (f : Nat → CommEvent)
    (e : CommEvent) :
    (e ∈ (List.range P).filterMap fun i => if act i then some (f i) else none)
      ↔ ∃ i, i < P ∧ act i = true ∧ e = f i := by
  rw [List.mem_filterMap]
  constructor
  · rintro ⟨a, ha, hr⟩
    rw [List.mem_range] at ha
    by_cases hact : act a
    · rw [if_pos hact] at hr
      exact ⟨a, ha, hact, (Option.some.inj hr).symm⟩
    · rw [if_neg hact] at hr; cases hr
  · rintro ⟨a, ha, hact, he⟩
    exact ⟨a, List.mem_range.mpr ha, by rw [if_pos hact, he]⟩

theorem exchangePhase_mem_elim (P : Nat) (sa ra : Nat → Bool) (sb rb : Nat → Nat)
    (e : CommEvent) (he : e ∈ exchangePhase P sa ra sb rb) :
    (∃ i, i < P ∧ ra i = true ∧ e = .irecv i (rb i))
    ∨ e = .barrier
    ∨ (∃ i, i < P ∧ sa i = true ∧ e = .send i (sb i))
    ∨ (∃ i, i < P ∧ ra i = true ∧ e = .waitRecv i) := by
  unfold exchangePhase at he
  rcases List.mem_append.mp he with h | h
  · rcases List.mem_append.mp h with h | h
    · rcases List.mem_append.mp h with h | h
      · exact Or.inl ((mem_guard_filterMap _ _ _ _).mp h)
      · rcases List.mem_cons.mp h with h | h
        · exact Or.inr (Or.inl h)
        · cases h
    · exact Or.inr (Or.inr (Or.inl ((mem_guard_filterMap _ _ _ _).mp h)))
  · exact Or.inr (Or.inr (Or.inr ((mem_guard_filterMap _ _ _ _).mp h)))

theorem exchangePhase_mem_irecv (P : Nat) (sa ra : Nat → Bool) (sb rb : Nat → Nat)
    (i s : Nat) :
    CommEvent.irecv i s ∈ exchangePhase P sa ra sb rb
      ↔ i < P ∧ ra i = true ∧ s = rb i := by
  constructor
  · intro h
    rcases exchangePhase_mem_elim P sa ra sb rb _ h with
      ⟨a, ha, hact, he⟩ | he | ⟨a, ha, hact, he⟩ | ⟨a, ha, hact, he⟩ <;>
      cases he
    exact ⟨ha, hact, rfl⟩
  · rintro ⟨hi, hr, hs⟩
    unfold exchangePhase
    exact List.mem_append.mpr (Or.inl (List.mem_append.mpr (Or.inl
      (List.mem_append.mpr (Or.inl
        ((mem_guard_filterMap P ra (fun a => CommEvent.irecv a (rb a)) _).mpr
          ⟨i, hi, hr, by rw [hs]⟩))))))

theorem exchangePhase_no_requireFail (P : Nat) (sa ra : Nat → Bool) (sb rb : Nat → Nat) :
    CommEvent.requireFail ∉ exchangePhase P sa ra sb rb := by
  intro h
  rcases exchangePhase_mem_elim P sa ra sb rb _ h with
    ⟨a, _, _, he⟩ | he | ⟨a, _, _, he⟩ | ⟨a, _, _, he⟩ <;> cases he

theorem exchangePhase_no_isend (P : Nat) (sa ra : Nat → Bool) (sb rb : Nat → Nat)
    (p s : Nat) :
    CommEvent.isend p s ∉ exchangePhase P sa ra sb rb := by
  intro h
  rcases exchangePhase_mem_elim P sa ra sb rb _ h with
    ⟨a, _, _, he⟩ | he | ⟨a, _, _, he⟩ | ⟨a, _, _, he⟩ <;> cases he

/-- In a trace of the form `A ++ barrier :: B` where `A` contains no send
and `B` posts no receive, the barrier strictly separates every receive post
from every send. -/
theorem barrier_separates (A B : List CommEvent)
    (hA : ∀ e ∈ A, e.isSendEv = false)
    (hB : ∀ e ∈ B, e.isIrecv = false)
    (i j : Nat) (ei ej : CommEvent)
    (hi : (A ++ .barrier :: B)[i]? = some ei)
    (hj : (A ++ .barrier :: B)[j]? = some ej)
    (hrecv : ei.isIrecv = true) (hsend : ej.isSendEv = true) :
    i < A.length ∧ A.length < j
      ∧ (A ++ .barrier :: B)[A.length]? = some CommEvent.barrier := by
  have hbar : (A ++ .barrier :: B)[A.length]? = some CommEvent.barrier := by
    rw [List.getElem?_append_right (Nat.le_refl _)]
    simp
  have hiA : i < A.length := by
    by_contra hle
    push_neg at hle
    rw [List.getElem?_append_right hle] at hi
    rcases Nat.eq_or_lt_of_le hle with heq | hlt
    · rw [← heq, Nat.sub_self] at hi
      simp only [List.getElem?_cons_zero, Option.some.injEq] at hi
      rw [← hi] at hrecv; cases hrecv
    · obtain ⟨k, hk⟩ : ∃ k, i - A.length = k + 1 := ⟨i - A.length - 1, by omega⟩
      rw [hk] at hi
      simp only [List.getElem?_cons_succ] at hi
      rw [hB ei (List.getElem?_mem hi)] at hrecv; cases hrecv
  have hjA : A.length < j := by
    rcases Nat.lt_trichotomy j A.length with hlt | heq | hgt
    · exfalso
      rw [List.getElem?_append, if_pos hlt] at hj
      rw [hA ej (List.getElem?_mem hj)] at hsend; cases hsend
    · exfalso
      rw [heq, hbar] at hj
      cases Option.some.inj hj
      cases hsend
    · exact hgt
  exact ⟨hiA, hjA, hbar⟩

theorem exchangePhase_barrier_sep (P : Nat) (sa ra : Nat → Bool) (sb rb : Nat → Nat)
    (i j : Nat) (ei ej : CommEvent)
    (hi : (exchangePhase P sa ra sb rb)[i]? = some ei)
    (hj : (exchangePhase P sa ra sb rb)[j]? = some ej)
    (hrecv : ei.isIrecv = true) (hsend : ej.isSendEv = true) :
    ∃ k, i < k ∧ k < j ∧ (exchangePhase P sa ra sb rb)[k]? = some CommEvent.barrier := by
  have hshape : exchangePhase P sa ra sb rb
      = ((List.range P).filterMap fun a =>
          if ra a then some (.irecv a (rb a)) else none)
        ++ .barrier ::
          ((((List.range P).filterMap fun a =>
              if sa a then some (.send a (sb a)) else none))
            ++ ((List.range P).filterMap fun a =>
              if ra a then some (.waitRecv a) else none)) := by
    simp [exchangePhase]
  rw [hshape] at hi hj ⊢
  have hA : ∀ e ∈ ((List.range P).filterMap fun a =>
      if ra a then some (CommEvent.irecv a (rb a)) else none), e.isSendEv = false := by
    intro e he
    obtain ⟨a, _, _, hea⟩ := (mem_guard_filterMap _ _ _ _).mp he
    rw [hea]; rfl
  have hB : ∀ e ∈ ((((List.range P).filterMap fun a =>
        if sa a then some (CommEvent.send a (sb a)) else none))
      ++ ((List.range P).filterMap fun a =>
        if ra a then some (CommEvent.waitRecv a) else none)), e.isIrecv = false := by
    intro e he
    rcases List.mem_append.mp he with h | h <;>
      (obtain ⟨a, _, _, hea⟩ := (mem_guard_filterMap _ _ _ _).mp h; rw [hea]; rfl)
  obtain ⟨h1, h2, h3⟩ := barrier_separates _ _ hA hB i j ei ej hi hj hrecv hsend
  exact ⟨_, h1, h2, h3⟩

/-! ### Claim C4: barrier separation across the variants -/
/-- Claim C4 counterexample: the claim says every variant, including the
functor pack/unpack variant, posts receives, barriers, then sends — with a
barrier strictly separating all receive posts from any send in all five
variants.  `parallel_data_exchange_sym_pack_unpack` issues no barrier at
all, and its (non-blocking) send to partner 0 departs before the receive
for partner 1 is posted. -/
theorem c4_no_barrier_counterexample :
    parallel_data_exchange_sym_pack_unpack_trace [0, 1] (fun _ => 1) 1 true []
      = [.irecv 0 1, .isend 0 1, .irecv 1 1, .isend 1 1,
         .waitRecv 0, .unpackMsg 0, .waitRecv 1, .unpackMsg 1, .waitallSends]
    ∧ CommEvent.barrier
        ∉ parallel_data_exchange_sym_pack_unpack_trace [0, 1] (fun _ => 1) 1 true []
    ∧ (parallel_data_exchange_sym_pack_unpack_trace [0, 1] (fun _ => 1) 1 true [])[1]?
        = some (.isend 0 1)
    ∧ (parallel_data_exchange_sym_pack_unpack_trace [0, 1] (fun _ => 1) 1 true [])[2]?
        = some (.irecv 1 1) := by
  refine ⟨rfl, by decide, rfl, rfl⟩

theorem sym_pack_unpack_no_barrier (cp : List Nat) (f : Nat → Nat) (cs : Nat)
    (det : Bool) (arr : List Nat) :
    CommEvent.barrier ∉ parallel_data_exchange_sym_pack_unpack_trace cp f cs det arr := by
  intro h
  unfold parallel_data_exchange_sym_pack_unpack_trace at h
  rcases List.mem_append.mp h with h | h
  · rcases List.mem_append.mp h with h | h
    · obtain ⟨a, _, ha⟩ := List.mem_flatMap.mp h
      rcases List.mem_cons.mp ha with ha | ha
      · cases ha
      rcases List.mem_cons.mp ha with ha | ha
      · cases ha
      · cases ha
    · obtain ⟨a, _, ha⟩ := List.mem_flatMap.mp h
      cases det <;> simp only [if_true, if_false, Bool.false_eq_true, ite_false, ite_true] at ha <;>
        (rcases List.mem_cons.mp ha with ha | ha;
         · cases ha
         · rcases List.mem_cons.mp ha with ha | ha
           · cases ha
           · cases ha)
  · rcases List.mem_cons.mp h with h | h
    · cases h
    · cases h

/-- Claim C4 amended: the four list/offset-based variants do follow the
receive-post / barrier / blocking-send / wait pattern — in each of them
(for the unknown-size variant: within each of its two rounds, and for
`parallel_data_exchange_t`: within its own data phase after size
resolution) a barrier strictly separates every non-blocking receive post
from every send.  The functor pack/unpack variant does not: it never
issues a barrier and interleaves its non-blocking sends with its receive
posts. -/
theorem c4_barrier_amended :
    (∀ (P : Nat) (ss : List Nat) (cs i j : Nat) (ei ej : CommEvent),
      (parallel_data_exchange_sym_t_trace P ss cs)[i]? = some ei →
      (parallel_data_exchange_sym_t_trace P ss cs)[j]? = some ej →
      ei.isIrecv = true → ej.isSendEv = true →
      ∃ k, i < k ∧ k < j
        ∧ (parallel_data_exchange_sym_t_trace P ss cs)[k]? = some CommEvent.barrier)
    ∧ (∀ (P : Nat) (so ro : List Nat) (cs i j : Nat) (ei ej : CommEvent),
      (parallel_data_exchange_nonsym_known_sizes_t_trace P so ro cs)[i]? = some ei →
      (parallel_data_exchange_nonsym_known_sizes_t_trace P so ro cs)[j]? = some ej →
      ei.isIrecv = true → ej.isSendEv = true →
      ∃ k, i < k ∧ k < j
        ∧ (parallel_data_exchange_nonsym_known_sizes_t_trace P so ro cs)[k]?
            = some CommEvent.barrier)
    ∧ (∀ (P : Nat) (ss rc : List Nat) (cs i j : Nat) (ei ej : CommEvent),
      (parallel_data_exchange_t_data P ss rc cs)[i]? = some ei →
      (parallel_data_exchange_t_data P ss rc cs)[j]? = some ej →
      ei.isIrecv = true → ej.isSendEv = true →
      ∃ k, i < k ∧ k < j
        ∧ (parallel_data_exchange_t_data P ss rc cs)[k]? = some CommEvent.barrier)
    ∧ (∀ (P : Nat) (ss ri : List Nat) (i j : Nat) (ei ej : CommEvent),
      (sym_unknown_size_round P ss ri)[i]? = some ei →
      (sym_unknown_size_round P ss ri)[j]? = some ej →
      ei.isIrecv = true → ej.isSendEv = true →
      ∃ k, i < k ∧ k < j ∧ (sym_unknown_size_round P ss ri)[k]? = some CommEvent.barrier)
    ∧ (∀ (P : Nat) (ss ri re : List Nat) (cs i j : Nat) (ei ej : CommEvent),
      (sym_unknown_data_round P ss ri re cs)[i]? = some ei →
      (sym_unknown_data_round P ss ri re cs)[j]? = some ej →
      ei.isIrecv = true → ej.isSendEv = true →
      ∃ k, i < k ∧ k < j
        ∧ (sym_unknown_data_round P ss ri re cs)[k]? = some CommEvent.barrier)
    ∧ (∀ (cp : List Nat) (f : Nat → Nat) (cs : Nat) (det : Bool) (arr : List Nat),
      CommEvent.barrier ∉ parallel_data_exchange_sym_pack_unpack_trace cp f cs det arr) :=
  ⟨fun P ss cs i j ei ej h1 h2 h3 h4 =>
      exchangePhase_barrier_sep _ _ _ _ _ i j ei ej h1 h2 h3 h4,
    fun P so ro cs i j ei ej h1 h2 h3 h4 =>
      exchangePhase_barrier_sep _ _ _ _ _ i j ei ej h1 h2 h3 h4,
    fun P ss rc cs i j ei ej h1 h2 h3 h4 =>
      exchangePhase_barrier_sep _ _ _ _ _ i j ei ej h1 h2 h3 h4,
    fun P ss ri i j ei ej h1 h2 h3 h4 =>
      exchangePhase_barrier_sep _ _ _ _ _ i j ei ej h1 h2 h3 h4,
    fun P ss ri re cs i j ei ej h1 h2 h3 h4 =>
      exchangePhase_barrier_sep _ _ _ _ _ i j ei ej h1 h2 h3 h4,
    sym_pack_unpack_no_barrier⟩

/-! ### Claim C5: known-size precondition reporting -/
/-- Claim C5 counterexample: the claim says the known-size variants
(`parallel_data_exchange_sym_t` and
`parallel_data_exchange_nonsym_known_sizes_t`) report an assertion-style
precondition failure before any transport call when a per-participant
vector length mismatches the group size.  `parallel_data_exchange_sym_t`
performs no such check: with `num_procs = 2` and a 3-entry send list it
posts a receive, barriers, sends and waits, and never reports a failure. -/
theorem c5_no_check_counterexample :
    ([1, 0, 0] : List Nat).length ≠ 2
    ∧ parallel_data_exchange_sym_t_trace 2 [1, 0, 0] 4
        = [.irecv 0 4, .barrier, .send 0 4, .waitRecv 0]
    ∧ CommEvent.requireFail ∉ parallel_data_exchange_sym_t_trace 2 [1, 0, 0] 4 := by
  refine ⟨by decide, rfl, by decide⟩

/-- Claim C5 amended: only `parallel_data_exchange_t` (the unknown-plan
variant) reports a precondition failure — its `ThrowRequire` fires before
any transport call when `send_lists.size()` or `recv_lists.size()` differs
from `num_procs`, making `[requireFail]` the entire trace.  The known-size
variants `parallel_data_exchange_sym_t` and
`parallel_data_exchange_nonsym_known_sizes_t` perform no length check and
never report a precondition failure. -/
theorem c5_precondition_amended (P : Nat) (ss ri rc : List Nat)
    (resolver : List CommEvent) (cs P2 : Nat) (ss2 : List Nat) (cs2 P3 : Nat)
    (so ro : List Nat) (cs3 : Nat)
    (hmism : ¬(ss.length = P ∧ ri.length = P)) :
    parallel_data_exchange_t_trace P ss ri rc resolver cs = [.requireFail]
    ∧ CommEvent.requireFail ∉ parallel_data_exchange_sym_t_trace P2 ss2 cs2
    ∧ CommEvent.requireFail
        ∉ parallel_data_exchange_nonsym_known_sizes_t_trace P3 so ro cs3 := by
  refine ⟨?_, exchangePhase_no_requireFail _ _ _ _ _, exchangePhase_no_requireFail _ _ _ _ _⟩
  simp [parallel_data_exchange_t_trace, hmism]

/-- Claim C5 amended, witness: `num_procs = 2` with a 3-entry send list and
a 2-entry receive list. -/
theorem c5_precondition_amended_witness :
    ¬(([1, 0, 0] : List Nat).length = 2 ∧ ([0, 0] : List Nat).length = 2)
    ∧ (parallel_data_exchange_t_trace 2 [1, 0, 0] [0, 0] [] [] 4 = [.requireFail]
      ∧ CommEvent.requireFail ∉ parallel_data_exchange_sym_t_trace 2 [1, 0] 4
      ∧ CommEvent.requireFail
          ∉ parallel_data_exchange_nonsym_known_sizes_t_trace 2 [0, 1, 1] [0, 0, 1] 4) :=
  ⟨by decide,
    c5_precondition_amended 2 [1, 0, 0] [0, 0] [] [] 4 2 [1, 0] 4 2 [0, 1, 1] [0, 0, 1] 4
      (by decide)⟩

/-! ### Claim C6: receive handles exist iff the receive size is positive -/
/-- Claim C6 counterexample: the claim says no variant ever posts a
non-blocking receive for a zero-size message.  The functor pack/unpack
variant posts `MPI_Irecv` unconditionally for every listed partner: when
the pack functor produces an empty payload for partner 5, a zero-size
receive (and a zero-size non-blocking send) is still posted. -/
theorem c6_zero_size_recv_counterexample :
    parallel_data_exchange_sym_pack_unpack_trace [5] (fun _ => 0) 8 true []
      = [.irecv 5 0, .isend 5 0, .waitRecv 0, .unpackMsg 5, .waitallSends]
    ∧ CommEvent.irecv 5 0
        ∈ parallel_data_exchange_sym_pack_unpack_trace [5] (fun _ => 0) 8 true [] := by
  refine ⟨rfl, by decide⟩

/-- Claim C6 amended: in the four list/offset-based variants a non-blocking
receive (and hence its wait handle) exists for partner `i` exactly when the
corresponding receive size is known positive at post time, and every posted
receive has a positive byte size (given `sizeof(T) > 0`).  The functor
pack/unpack variant instead posts one receive per listed partner
unconditionally, zero-size messages included. -/
theorem c6_recv_handle_amended :
    (∀ (P : Nat) (ss : List Nat) (cs i s : Nat), 0 < cs →
      ((CommEvent.irecv i s ∈ parallel_data_exchange_sym_t_trace P ss cs
          ↔ i < P ∧ 0 < ss.getD i 0 ∧ s = ss.getD i 0 * cs)
        ∧ (CommEvent.irecv i s ∈ parallel_data_exchange_sym_t_trace P ss cs → 0 < s)))
    ∧ (∀ (P : Nat) (ss rc : List Nat) (cs i s : Nat), 0 < cs →
      ((CommEvent.irecv i s ∈ parallel_data_exchange_t_data P ss rc cs
          ↔ i < P ∧ 0 < rc.getD i 0 ∧ s = rc.getD i 0 * cs)
        ∧ (CommEvent.irecv i s ∈ parallel_data_exchange_t_data P ss rc cs → 0 < s)))
    ∧ (∀ (P : Nat) (so ro : List Nat) (cs i s : Nat), 0 < cs →
      ((CommEvent.irecv i s ∈ parallel_data_exchange_nonsym_known_sizes_t_trace P so ro cs
          ↔ i < P ∧ 0 < ro.getD (i + 1) 0 - ro.getD i 0
            ∧ s = (ro.getD (i + 1) 0 - ro.getD i 0) * cs)
        ∧ (CommEvent.irecv i s ∈ parallel_data_exchange_nonsym_known_sizes_t_trace P so ro cs
            → 0 < s)))
    ∧ (∀ (P : Nat) (ss ri re : List Nat) (cs i s : Nat), 0 < cs →
      CommEvent.irecv i s ∈ parallel_data_exchange_sym_unknown_size_t_trace P ss ri re cs
        → 0 < s)
    ∧ (∀ (cp : List Nat) (f : Nat → Nat) (cs : Nat) (det : Bool) (arr : List Nat)
        (i : Nat), i < cp.length →
      CommEvent.irecv (cp.getD i 0) (f (cp.getD i 0) * cs)
        ∈ parallel_data_exchange_sym_pack_unpack_trace cp f cs det arr) := by
  have hvariant : ∀ (P : Nat) (sa ra : Nat → Bool) (sb rb : Nat → Nat) (i s : Nat),
      (∀ a, ra a = true → 0 < rb a) →
      ((CommEvent.irecv i s ∈ exchangePhase P sa ra sb rb
          ↔ i < P ∧ ra i = true ∧ s = rb i)
        ∧ (CommEvent.irecv i s ∈ exchangePhase P sa ra sb rb → 0 < s)) := by
    intro P sa ra sb rb i s hpos
    refine ⟨exchangePhase_mem_irecv P sa ra sb rb i s, fun h => ?_⟩
    obtain ⟨_, hr, hs⟩ := (exchangePhase_mem_irecv P sa ra sb rb i s).mp h
    rw [hs]; exact hpos i hr
  refine ⟨?_, ?_, ?_, ?_, ?_⟩
  · intro P ss cs i s hcs
    have h := hvariant P (fun a => decide (0 < ss.getD a 0))
        (fun a => decide (0 < ss.getD a 0))
        (fun a => ss.getD a 0 * cs) (fun a => ss.getD a 0 * cs) i s
        (fun a ha => Nat.mul_pos (of_decide_eq_true ha) hcs)
    simpa [parallel_data_exchange_sym_t_trace, decide_eq_true_eq] using h
  · intro P ss rc cs i s hcs
    have h := hvariant P (fun a => decide (0 < ss.getD a 0))
        (fun a => decide (0 < rc.getD a 0))
        (fun a => ss.getD a 0 * cs) (fun a => rc.getD a 0 * cs) i s
        (fun a ha => Nat.mul_pos (of_decide_eq_true ha) hcs)
    simpa [parallel_data_exchange_t_data, decide_eq_true_eq] using h
  · intro P so ro cs i s hcs
    have h := hvariant P (fun a => decide (0 < so.getD (a + 1) 0 - so.getD a 0))
        (fun a => decide (0 < ro.getD (a + 1) 0 - ro.getD a 0))
        (fun a => (so.getD (a + 1) 0 - so.getD a 0) * cs)
        (fun a => (ro.getD (a + 1) 0 - ro.getD a 0) * cs) i s
        (fun a ha => Nat.mul_pos (of_decide_eq_true ha) hcs)
    simpa [parallel_data_exchange_nonsym_known_sizes_t_trace, decide_eq_true_eq] using h
  · intro P ss ri re cs i s hcs h
    rcases List.mem_append.mp h with h | h
    · obtain ⟨_, hr, hs⟩ := (exchangePhase_mem_irecv _ _ _ _ _ i s).mp h
      rw [hs]; decide
    · obtain ⟨_, hr, hs⟩ := (exchangePhase_mem_irecv _ _ _ _ _ i s).mp h
      rw [hs]; exact Nat.mul_pos (of_decide_eq_true hr) hcs
  · intro cp f cs det arr i hi
    unfold parallel_data_exchange_sym_pack_unpack_trace
    refine List.mem_append.mpr (Or.inl (List.mem_append.mpr (Or.inl
      (List.mem_flatMap.mpr ⟨i, List.mem_range.mpr hi, ?_⟩))))
    exact List.mem_cons_self _ _

/-! ### Claim C9: partner-set encoding in the unknown-size variant -/
/-- Claim C9: in `parallel_data_exchange_sym_unknown_size_t` the partner set
is encoded by which `recv_lists` entries are non-empty on entry: a
size-message receive is posted for partner `i` iff `recv_lists[i]` is
non-empty at call begin; a data receive is subsequently posted for exactly
those partners (partners only ever send positive size values, `henv`); and
a partner whose entry is initially empty never has any receive posted for
it. -/
theorem c9_partner_set_encoding (P : Nat) (ss ri re : List Nat) (cs : Nat) (i : Nat)
    (henv : ∀ j, j < P → 0 < ri.getD j 0 → 0 < re.getD j 0) :
    (CommEvent.irecv i 4 ∈ sym_unknown_size_round P ss ri
      ↔ i < P ∧ 0 < ri.getD i 0)
    ∧ ((∃ s, CommEvent.irecv i s ∈ sym_unknown_data_round P ss ri re cs)
      ↔ i < P ∧ 0 < ri.getD i 0)
    ∧ (ri.getD i 0 = 0 →
      ∀ s, CommEvent.irecv i s
        ∉ parallel_data_exchange_sym_unknown_size_t_trace P ss ri re cs) := by
  refine ⟨?_, ⟨?_, ?_⟩, ?_⟩
  · unfold sym_unknown_size_round
    rw [exchangePhase_mem_irecv]
    simp [decide_eq_true_eq]
  · rintro ⟨s, h⟩
    obtain ⟨hi, hr, _⟩ := (exchangePhase_mem_irecv _ _ _ _ _ i s).mp h
    have hra : 0 < recvAfterResize ri re i := of_decide_eq_true hr
    refine ⟨hi, ?_⟩
    by_contra hzero
    push_neg at hzero
    have h0 : ri.getD i 0 = 0 := by omega
    unfold recvAfterResize at hra
    rw [h0] at hra
    simp at hra
  · rintro ⟨hi, hr⟩
    refine ⟨recvAfterResize ri re i * cs, (exchangePhase_mem_irecv _ _ _ _ _ _ _).mpr
      ⟨hi, ?_, rfl⟩⟩
    have : 0 < recvAfterResize ri re i := by
      simp only [recvAfterResize, if_pos hr]
      exact henv i hi hr
    exact decide_eq_true this
  · intro hzero s h
    rcases List.mem_append.mp h with h | h
    · obtain ⟨_, hr, _⟩ := (exchangePhase_mem_irecv _ _ _ _ _ i s).mp h
      rw [hzero] at hr
      cases hr
    · obtain ⟨_, hr, _⟩ := (exchangePhase_mem_irecv _ _ _ _ _ i s).mp h
      have hra : 0 < recvAfterResize ri re i := of_decide_eq_true hr
      unfold recvAfterResize at hra
      rw [hzero] at hra
      simp at hra

/-- Claim C9 witness: four ranks; entries 1 and 3 are expected partners,
the delivered size values are positive for them. -/
theorem c9_partner_set_encoding_witness :
    (∀ j, j < 4 → 0 < ([0, 2, 0, 1] : List Nat).getD j 0
      → 0 < ([0, 7, 0, 3] : List Nat).getD j 0)
    ∧ ((CommEvent.irecv 1 4 ∈ sym_unknown_size_round 4 [0, 5, 0, 0] [0, 2, 0, 1]
        ↔ 1 < 4 ∧ 0 < ([0, 2, 0, 1] : List Nat).getD 1 0)
      ∧ ((∃ s, CommEvent.irecv 1 s
            ∈ sym_unknown_data_round 4 [0, 5, 0, 0] [0, 2, 0, 1] [0, 7, 0, 3] 4)
        ↔ 1 < 4 ∧ 0 < ([0, 2, 0, 1] : List Nat).getD 1 0)
      ∧ (([0, 2, 0, 1] : List Nat).getD 1 0 = 0 →
        ∀ s, CommEvent.irecv 1 s
          ∉ parallel_data_exchange_sym_unknown_size_t_trace 4 [0, 5, 0, 0]
              [0, 2, 0, 1] [0, 7, 0, 3] 4)) :=
  ⟨by decide,
    c9_partner_set_encoding 4 [0, 5, 0, 0] [0, 2, 0, 1] [0, 7, 0, 3] 4 1 (by decide)⟩

theorem filterMap_flatMap_range (n : Nat) (f : Nat → List CommEvent)
    (g : CommEvent → Option Nat) (u : Nat → List Nat)
    (h : ∀ i, (f i).filterMap g = u i) :
    ((List.range n).flatMap f).filterMap g = (List.range n).flatMap u := by
  induction n with
  | zero => rfl
  | succ n ih =>
      rw [List.range_succ, List.flatMap_append, List.filterMap_append, ih,
        List.flatMap_append]
      simp [h]

theorem range_map_getD (cp : List Nat) :
    ((List.range cp.length).map fun i => cp.getD i 0) = cp := by
  induction cp with
  | nil => rfl
  | cons a cp ih =>
      rw [List.length_cons, List.range_succ_eq_map, List.map_cons, List.map_map]
      simp only [List.getD_cons_zero]
      have hc : ((fun i => (a :: cp).getD i 0) ∘ Nat.succ) = fun i => cp.getD i 0 := by
        funext i
        simp [Function.comp, List.getD_cons_succ]
      rw [hc, ih]

/-- Claim C8: with `deterministic = true` the functor variant invokes the
unpack callback exactly once per partner in `comm_procs` and in
partner-list order (the extracted unpack-partner sequence is exactly
`comm_procs`), and the collective `MPI_Waitall` on the send requests is the
final transport action before the call returns. -/
theorem c8_deterministic_order (cp : List Nat) (f : Nat → Nat) (cs : Nat)
    (arr : List Nat) :
    (parallel_data_exchange_sym_pack_unpack_trace cp f cs true arr).filterMap unpackProcOf
      = cp
    ∧ (parallel_data_exchange_sym_pack_unpack_trace cp f cs true arr).getLast?
      = some CommEvent.waitallSends := by
  constructor
  · unfold parallel_data_exchange_sym_pack_unpack_trace
    rw [List.filterMap_append, List.filterMap_append]
    rw [filterMap_flatMap_range cp.length _ unpackProcOf (fun _ => [])
      (fun i => by simp [unpackProcOf])]
    rw [filterMap_flatMap_range cp.length _ unpackProcOf (fun i => [cp.getD i 0])
      (fun i => by simp [unpackProcOf])]
    have h1 : ((List.range cp.length).flatMap fun _ => ([] : List Nat)) = [] := by
      induction cp.length with
      | zero => rfl
      | succ n ih => rw [List.range_succ, List.flatMap_append, ih]; rfl
    have h2 : ((List.range cp.length).flatMap fun i => [cp.getD i 0])
        = (List.range cp.length).map fun i => cp.getD i 0 := by
      rw [← List.map_eq_flatMap]
    rw [h1, h2, range_map_getD]
    simp [unpackProcOf]
  · unfold parallel_data_exchange_sym_pack_unpack_trace
    rw [List.append_assoc, List.getLast?_append, List.getLast?_concat]
    rfl

/-! ### Claim C1: round-trip of the full pack/unpack overload family
Supporting lemmas: byte encodings of the fixed-width count fields, and
take/drop algebra for `splice`/`slice`. -/
theorem natToBytes_length (w : Nat) : ∀ n, (natToBytes w n).length = w := by
  induction w with
  | zero => intro n; rfl
  | succ w ih => intro n; simp [natToBytes, ih]

theorem bytesToNat_natToBytes (w : Nat) : ∀ n, bytesToNat (natToBytes w n) = n % 256 ^ w := by
  induction w with
  | zero => intro n; simp [natToBytes, bytesToNat, Nat.mod_one]
  | succ w ih =>
      intro n
      rw [natToBytes, bytesToNat, ih, Nat.pow_succ, Nat.mul_comm (256 ^ w) 256,
        Nat.mod_mul]

theorem commBufferAlign_one (p : Nat) : commBufferAlign 1 p = 0 := by
  simp [commBufferAlign, Nat.mod_one]

theorem splice_all (data ins : List Nat) (h : ins.length = data.length) :
    splice data 0 ins = ins := by
  simp [splice, h]

theorem slice_full (data : List Nat) : slice data 0 data.length = data := by
  simp [slice]

theorem splice_splice (data e1 e2 : List Nat) (p : Nat)
    (h : p + e1.length + e2.length ≤ data.length) :
    splice (splice data p e1) (p + e1.length) e2 = splice data p (e1 ++ e2) := by
  unfold splice
  have h1 : p ≤ data.length := by omega
  have hA : (data.take p ++ e1).length = p + e1.length := by
    simp [List.length_take, Nat.min_eq_left h1]
  have ht : ((data.take p ++ e1) ++ data.drop (p + e1.length)).take (p + e1.length)
      = data.take p ++ e1 := by
    rw [← hA, List.take_left]
  have hd : ((data.take p ++ e1) ++ data.drop (p + e1.length)).drop
      (p + e1.length + e2.length) = data.drop (p + e1.length + e2.length) := by
    rw [List.drop_append_eq_append_drop]
    rw [List.drop_of_length_le (by rw [hA]; omega), hA]
    have h2 : p + e1.length + e2.length - (p + e1.length) = e2.length := by omega
    rw [h2, List.nil_append, List.drop_drop]
  rw [show data.take p ++ e1 ++ data.drop (p + e1.length)
      = (data.take p ++ e1) ++ data.drop (p + e1.length) from rfl]
  rw [ht, hd]
  simp [List.append_assoc, Nat.add_assoc]

theorem splice_splice_at (data e1 e2 : List Nat) (p q2 : Nat)
    (hq : q2 = p + e1.length)
    (h : p + e1.length + e2.length ≤ data.length) :
    splice (splice data p e1) q2 e2 = splice data p (e1 ++ e2) := by
  subst hq
  exact splice_splice data e1 e2 p h

theorem slice_append_left (data e1 e2 : List Nat) (p : Nat)
    (h : slice data p (e1.length + e2.length) = e1 ++ e2) :
    slice data p e1.length = e1 := by
  unfold slice at h ⊢
  have h2 := congrArg (List.take e1.length) h
  rw [List.take_take, Nat.min_eq_left (by omega)] at h2
  rw [h2, List.take_left]

theorem slice_append_right (data e1 e2 : List Nat) (p : Nat)
    (h : slice data p (e1.length + e2.length) = e1 ++ e2) :
    slice data (p + e1.length) e2.length = e2 := by
  unfold slice at h ⊢
  have h2 := congrArg (List.drop e1.length) h
  rw [List.drop_take, List.drop_append_eq_append_drop, Nat.sub_self, List.drop_length,
    List.drop_zero, List.nil_append, Nat.add_sub_cancel_left, List.drop_drop] at h2
  exact h2

theorem pack_sizing (p : Nat) (bytes : List Nat) :
    CommBuffer.pack (sizingBuf p) bytes
      = .ok (sizingBuf (p + (commBufferAlign bytes.length p + bytes.length))) := by
  simp [CommBuffer.pack, sizingBuf, Nat.add_assoc]

theorem packPtr_sizing (p : Nat) (S n : Nat) (bytes : List Nat) :
    CommBuffer.packPtr (sizingBuf p) S n bytes
      = .ok (sizingBuf (p + (commBufferAlign S p + n * S))) := by
  simp [CommBuffer.packPtr, sizingBuf, Nat.add_assoc]

/-- Sizing-mode run of the recursive pack family: it always succeeds and
advances the cursor by exactly the length of the byte encoding. -/
theorem packVal_sizing {v : PayloadVal} {t : PayloadTy} (h : WF v t) :
    ∀ p, packVal v (sizingBuf p) = .ok (sizingBuf (p + (encVal v p).length)) := by
  induction h with
  | scalar hlen hpos =>
      intro p
      rw [packVal, pack_sizing, encVal]
      simp
  | str hlen =>
      intro p
      rw [packVal]
      simp only [bind, Except.bind, pack_sizing, packPtr_sizing, natToBytes_length]
      rw [encVal]
      simp [commBufferAlign_one, natToBytes_length, Nat.add_assoc]
  | pairV hx hy ihx ihy =>
      intro p
      rw [packVal]
      simp only [bind, Except.bind, ihx, ihy]
      rw [encVal]
      simp [Nat.add_assoc]
  | @mapV es kt vt hlen hk hv hpw ihk ihv =>
      have inner : ∀ (l : List (PayloadVal × PayloadVal)), (∀ kv ∈ l, kv ∈ es) → ∀ q,
          packEntries l (sizingBuf q) = .ok (sizingBuf (q + (encEntries l q).length)) := by
        intro l
        induction l with
        | nil => intro _ q; simp [packEntries, encEntries]
        | cons kv rest ihl =>
            intro hsub q
            rw [packEntries]
            simp only [bind, Except.bind,
              ihk kv (hsub kv (List.mem_cons_self kv rest)),
              ihv kv (hsub kv (List.mem_cons_self kv rest)),
              ihl (fun a ha => hsub a (List.mem_cons_of_mem kv ha))]
            rw [encEntries]
            simp [List.length_append, Nat.add_assoc]
      intro p
      rw [packVal]
      simp only [bind, Except.bind, pack_sizing, natToBytes_length,
        inner es (fun _ h => h)]
      rw [encVal]
      simp [List.length_append, natToBytes_length, Nat.add_assoc]
  | @vec es t hlen he ihe =>
      have inner : ∀ (l : List PayloadVal), (∀ e ∈ l, e ∈ es) → ∀ q,
          packElems l (sizingBuf q) = .ok (sizingBuf (q + (encElems l q).length)) := by
        intro l
        induction l with
        | nil => intro _ q; simp [packElems, encElems]
        | cons x rest ihl =>
            intro hsub q
            rw [packElems]
            simp only [bind, Except.bind,
              ihe x (hsub x (List.mem_cons_self x rest)),
              ihl (fun a ha => hsub a (List.mem_cons_of_mem x ha))]
            rw [encElems]
            simp [List.length_append, Nat.add_assoc]
      intro p
      rw [packVal]
      simp only [bind, Except.bind, pack_sizing, natToBytes_length,
        inner es (fun _ h => h)]
      rw [encVal]
      simp [List.length_append, natToBytes_length, Nat.add_assoc]

theorem pack_transfer (p : Nat) (bytes data : List Nat)
    (h : p + (commBufferAlign bytes.length p + bytes.length) ≤ data.length) :
    CommBuffer.pack { backed := true, data := data, m_ptr := p } bytes
      = .ok { backed := true,
              data := splice data p
                (List.replicate (commBufferAlign bytes.length p) 0 ++ bytes),
              m_ptr := p + (commBufferAlign bytes.length p + bytes.length) } := by
  have hno : ¬ data.length < p + commBufferAlign bytes.length p + bytes.length := by
    omega
  simp [CommBuffer.pack, hno, Nat.add_assoc]
  omega

theorem packPtr_transfer (p S n : Nat) (bytes data : List Nat)
    (h : p + (commBufferAlign S p + n * S) ≤ data.length) :
    CommBuffer.packPtr { backed := true, data := data, m_ptr := p } S n bytes
      = .ok { backed := true,
              data := splice data p (List.replicate (commBufferAlign S p) 0 ++ bytes),
              m_ptr := p + (commBufferAlign S p + n * S) } := by
  have hno : ¬ data.length < p + commBufferAlign S p + n * S := by omega
  simp [CommBuffer.packPtr, hno, Nat.add_assoc]
  omega

/-- Transfer-mode run of the recursive pack family on a backed buffer with
enough room: it writes exactly the byte encoding at the cursor and advances
by its length. -/
theorem packVal_transfer {v : PayloadVal} {t : PayloadTy} (h : WF v t) :
    ∀ p data, p + (encVal v p).length ≤ data.length →
      packVal v { backed := true, data := data, m_ptr := p }
        = .ok { backed := true, data := splice data p (encVal v p),
                m_ptr := p + (encVal v p).length } := by
  induction h with
  | scalar hlen hpos =>
      intro p data hcap
      rw [encVal] at hcap ⊢
      rw [packVal, pack_transfer p _ data (by simpa using hcap)]
      simp
  | @str chars hlen =>
      intro p data hcap
      rw [encVal] at hcap ⊢
      simp only [List.length_append, List.length_replicate, natToBytes_length] at hcap
      rw [packVal]
      rw [pack_transfer p (natToBytes 8 chars.length) data
        (by simp [natToBytes_length]; omega)]
      simp only [natToBytes_length, bind, Except.bind]
      have hE0 : (List.replicate (commBufferAlign 8 p) 0
          ++ natToBytes 8 chars.length).length = commBufferAlign 8 p + 8 := by
        simp [natToBytes_length]
      have hD1 : (splice data p (List.replicate (commBufferAlign 8 p) 0
          ++ natToBytes 8 chars.length)).length = data.length :=
        splice_length _ _ _ (by rw [hE0]; omega)
      rw [packPtr_transfer _ 1 chars.length chars _
        (by rw [hD1]; simp [commBufferAlign_one]; omega)]
      simp only [commBufferAlign_one, List.replicate_zero, List.nil_append,
        Nat.mul_one, Nat.zero_add]
      have hss : splice (splice data p (List.replicate (commBufferAlign 8 p) 0
            ++ natToBytes 8 chars.length)) (p + (commBufferAlign 8 p + 8)) chars
          = splice data p ((List.replicate (commBufferAlign 8 p) 0
            ++ natToBytes 8 chars.length) ++ chars) := by
        rw [← hE0, splice_splice]
        rw [hE0]
        omega
      rw [hss]
      simp [List.length_append, natToBytes_length, Nat.add_assoc]
  | @pairV x y t1 t2 hx hy ihx ihy =>
      intro p data hcap
      rw [encVal] at hcap ⊢
      simp only [List.length_append] at hcap
      rw [packVal]
      rw [ihx p data (by omega)]
      simp only [bind, Except.bind]
      have hsp : (splice data p (encVal x p)).length = data.length :=
        splice_length _ _ _ (by omega)
      rw [ihy (p + (encVal x p).length) (splice data p (encVal x p)) (by rw [hsp]; omega)]
      rw [splice_splice data (encVal x p) _ p (by omega)]
      simp [List.length_append, Nat.add_assoc]
  | @mapV es kt vt hlen hk hv hpw ihk ihv =>
      have inner : ∀ (l : List (PayloadVal × PayloadVal)), (∀ kv ∈ l, kv ∈ es) →
          ∀ q d, q + (encEntries l q).length ≤ d.length →
          packEntries l { backed := true, data := d, m_ptr := q }
            = .ok { backed := true, data := splice d q (encEntries l q),
                    m_ptr := q + (encEntries l q).length } := by
        intro l
        induction l with
        | nil =>
            intro _ q d hcap
            simp [packEntries, encEntries, splice]
        | cons kv rest ihl =>
            intro hsub q d hcap
            rw [encEntries] at hcap ⊢
            simp only [List.length_append] at hcap
            have hd1 : (splice d q (encVal kv.1 q)).length = d.length :=
              splice_length _ _ _ (by omega)
            have hd2 : (splice (splice d q (encVal kv.1 q)) (q + (encVal kv.1 q).length)
                (encVal kv.2 (q + (encVal kv.1 q).length))).length = d.length := by
              rw [splice_length _ _ _ (by rw [hd1]; omega), hd1]
            have h1 := ihk kv (hsub kv (List.mem_cons_self kv rest)) q d (by omega)
            have h2 := ihv kv (hsub kv (List.mem_cons_self kv rest))
              (q + (encVal kv.1 q).length) (splice d q (encVal kv.1 q))
              (by rw [hd1]; omega)
            have h3 := ihl (fun a ha => hsub a (List.mem_cons_of_mem kv ha))
              (q + (encVal kv.1 q).length + (encVal kv.2 (q + (encVal kv.1 q).length)).length)
              (splice (splice d q (encVal kv.1 q)) (q + (encVal kv.1 q).length)
                (encVal kv.2 (q + (encVal kv.1 q).length)))
              (by rw [hd2]; omega)
            simp only [packEntries, bind, Except.bind, h1, h2, h3]
            rw [splice_splice_at d (encVal kv.1 q) _ q _ rfl (by omega)]
            rw [splice_splice_at d _ _ q _ (by simp only [List.length_append]; omega)
              (by simp only [List.length_append]; omega)]
            simp [List.length_append, Nat.add_assoc]
      intro p data hcap
      rw [encVal] at hcap ⊢
      simp only [List.length_append, List.length_replicate, natToBytes_length] at hcap
      rw [packVal]
      rw [pack_transfer p (natToBytes 8 es.length) data (by simp [natToBytes_length]; omega)]
      simp only [natToBytes_length, bind, Except.bind]
      have hE0 : (List.replicate (commBufferAlign 8 p) 0
          ++ natToBytes 8 es.length).length = commBufferAlign 8 p + 8 := by
        simp [natToBytes_length]
      have hD1 : (splice data p (List.replicate (commBufferAlign 8 p) 0
          ++ natToBytes 8 es.length)).length = data.length :=
        splice_length _ _ _ (by rw [hE0]; omega)
      rw [inner es (fun _ h => h) (p + (commBufferAlign 8 p + 8)) _ (by rw [hD1]; omega)]
      rw [splice_splice_at data _ _ p _ (by rw [hE0]) (by rw [hE0]; omega)]
      simp [List.length_append, natToBytes_length, Nat.add_assoc]
  | @vec es t hlen he ihe =>
      have inner : ∀ (l : List PayloadVal), (∀ x ∈ l, x ∈ es) →
          ∀ q d, q + (encElems l q).length ≤ d.length →
          packElems l { backed := true, data := d, m_ptr := q }
            = .ok { backed := true, data := splice d q (encElems l q),
                    m_ptr := q + (encElems l q).length } := by
        intro l
        induction l with
        | nil =>
            intro _ q d hcap
            simp [packElems, encElems, splice]
        | cons x rest ihl =>
            intro hsub q d hcap
            rw [encElems] at hcap ⊢
            simp only [List.length_append] at hcap
            have hd1 : (splice d q (encVal x q)).length = d.length :=
              splice_length _ _ _ (by omega)
            have h1 := ihe x (hsub x (List.mem_cons_self x rest)) q d (by omega)
            have h2 := ihl (fun a ha => hsub a (List.mem_cons_of_mem x ha))
              (q + (encVal x q).length) (splice d q (encVal x q)) (by rw [hd1]; omega)
            simp only [packElems, bind, Except.bind, h1, h2]
            rw [splice_splice_at d (encVal x q) _ q _ rfl (by omega)]
            simp [List.length_append, Nat.add_assoc]
      intro p data hcap
      rw [encVal] at hcap ⊢
      simp only [List.length_append, List.length_replicate, natToBytes_length] at hcap
      rw [packVal]
      rw [pack_transfer p (natToBytes 4 es.length) data (by simp [natToBytes_length]; omega)]
      simp only [natToBytes_length, bind, Except.bind]
      have hE0 : (List.replicate (commBufferAlign 4 p) 0
          ++ natToBytes 4 es.length).length = commBufferAlign 4 p + 4 := by
        simp [natToBytes_length]
      have hD1 : (splice data p (List.replicate (commBufferAlign 4 p) 0
          ++ natToBytes 4 es.length)).length = data.length :=
        splice_length _ _ _ (by rw [hE0]; omega)
      rw [inner es (fun _ h => h) (p + (commBufferAlign 4 p + 4)) _ (by rw [hD1]; omega)]
      rw [splice_splice_at data _ _ p _ (by rw [hE0]) (by rw [hE0]; omega)]
      simp [List.length_append, natToBytes_length, Nat.add_assoc]

theorem slice_drop_block (data : List Nat) (p n S : Nat) (bytes : List Nat)
    (hslice : slice data p (n + S) = List.replicate n 0 ++ bytes) :
    slice data (p + n) S = bytes := by
  have h2 : List.drop n (List.replicate n (0 : Nat) ++ bytes) = bytes := by
    rw [List.drop_append_eq_append_drop, List.drop_replicate, Nat.sub_self,
      List.length_replicate, Nat.sub_self, List.replicate_zero, List.nil_append,
      List.drop_zero]
  have h3 : (slice data p (n + S)).drop n = slice data (p + n) S := by
    unfold slice
    rw [List.drop_take, Nat.add_sub_cancel_left, List.drop_drop]
  calc slice data (p + n) S
      = (slice data p (n + S)).drop n := h3.symm
    _ = (List.replicate n 0 ++ bytes).drop n := by rw [hslice]
    _ = bytes := h2

/-- Reading one aligned scalar block out of a buffer whose bytes at the
cursor hold the block's encoding. -/
theorem unpack_block (data : List Nat) (p S : Nat) (bytes : List Nat) (bk : Bool)
    (hS : bytes.length = S)
    (hslice : slice data p (commBufferAlign S p + S)
        = List.replicate (commBufferAlign S p) 0 ++ bytes)
    (hcap : p + (commBufferAlign S p + S) ≤ data.length) :
    CommBuffer.unpack { backed := bk, data := data, m_ptr := p } S
      = .ok (bytes, { backed := bk, data := data,
                      m_ptr := p + (commBufferAlign S p + S) }) := by
  have hno : ¬ data.length < p + commBufferAlign S p + S := by omega
  have hread := slice_drop_block data p (commBufferAlign S p) S bytes hslice
  simp [CommBuffer.unpack, hno, hread, Nat.add_assoc]
  omega

/-- Reading one aligned array block (`number` elements of size `S`). -/
theorem unpackPtr_block (data : List Nat) (p S n : Nat) (bytes : List Nat) (bk : Bool)
    (hS : bytes.length = n * S)
    (hslice : slice data p (commBufferAlign S p + n * S)
        = List.replicate (commBufferAlign S p) 0 ++ bytes)
    (hcap : p + (commBufferAlign S p + n * S) ≤ data.length) :
    CommBuffer.unpackPtr { backed := bk, data := data, m_ptr := p } S n
      = .ok (bytes, { backed := bk, data := data,
                      m_ptr := p + (commBufferAlign S p + n * S) }) := by
  have hno : ¬ data.length < p + commBufferAlign S p + n * S := by omega
  have hread := slice_drop_block data p (commBufferAlign S p) (n * S) bytes hslice
  simp [CommBuffer.unpackPtr, hno, hread, Nat.add_assoc]
  omega

theorem mapInsert_of_fresh (m : List (PayloadVal × PayloadVal)) (k v : PayloadVal)
    (h : ∀ a ∈ m, a.1 ≠ k) :
    mapInsert m k v = m ++ [(k, v)] := by
  unfold mapInsert
  have hany : m.any (fun kv => pvBeq kv.1 k) = false := by
    rw [List.any_eq_false]
    intro kv hkv hbeq
    exact h kv hkv (pvBeq_sound _ _ hbeq)
  simp [hany]

/-- Unpacking from a buffer whose bytes at the cursor hold the encoding of a
well-formed value reconstructs exactly that value. -/
theorem unpackVal_correct {v : PayloadVal} {t : PayloadTy} (h : WF v t) :
    ∀ p data bk,
      slice data p (encVal v p).length = encVal v p →
      p + (encVal v p).length ≤ data.length →
      unpackVal t { backed := bk, data := data, m_ptr := p }
        = .ok (v, { backed := bk, data := data, m_ptr := p + (encVal v p).length }) := by
  induction h with
  | @scalar bytes S hlen hpos =>
      intro p data bk hslice hcap
      rw [encVal] at hslice hcap
      simp only [List.length_append, List.length_replicate, hlen] at hslice hcap
      subst hlen
      rw [unpackVal]
      rw [unpack_block data p bytes.length bytes bk rfl hslice (by omega)]
      simp only [bind, Except.bind]
      rw [encVal]
      simp [List.length_append, Nat.add_assoc]
  | @str chars hlen =>
      intro p data bk hslice hcap
      rw [encVal] at hslice hcap
      simp only [List.length_append, List.length_replicate, natToBytes_length]
        at hslice hcap
      have hE : (List.replicate (commBufferAlign 8 p) 0
          ++ natToBytes 8 chars.length).length = commBufferAlign 8 p + 8 := by
        simp [natToBytes_length]
      rw [show commBufferAlign 8 p + 8 + chars.length
          = (List.replicate (commBufferAlign 8 p) 0
             ++ natToBytes 8 chars.length).length + chars.length by rw [hE]] at hslice
      have h1 := slice_append_left data _ chars p hslice
      have h2 := slice_append_right data _ chars p hslice
      rw [hE] at h1 h2
      rw [unpackVal]
      rw [unpack_block data p 8 (natToBytes 8 chars.length) bk (natToBytes_length 8 _)
        h1 (by omega)]
      simp only [bind, Except.bind]
      rw [bytesToNat_natToBytes, show (256 : Nat) ^ 8 = 2 ^ 64 by norm_num,
        Nat.mod_eq_of_lt hlen]
      rw [unpackPtr_block data _ 1 chars.length chars bk (by simp)
        (by simpa [commBufferAlign_one] using h2)
        (by simp [commBufferAlign_one]; omega)]
      simp only [commBufferAlign_one, Nat.mul_one, Nat.zero_add]
      rw [encVal]
      simp [List.length_append, natToBytes_length, Nat.add_assoc]
  | @pairV x y t1 t2 hx hy ihx ihy =>
      intro p data bk hslice hcap
      rw [encVal] at hslice hcap
      simp only [List.length_append] at hslice hcap
      have h1 := slice_append_left data (encVal x p) (encVal y (p + (encVal x p).length)) p
        hslice
      have h2 := slice_append_right data (encVal x p)
        (encVal y (p + (encVal x p).length)) p hslice
      rw [unpackVal]
      rw [ihx p data bk h1 (by omega)]
      simp only [bind, Except.bind]
      rw [ihy (p + (encVal x p).length) data bk h2 (by omega)]
      rw [encVal]
      simp [List.length_append, Nat.add_assoc]
  | @mapV es kt vt hlen hk hv hpw ihk ihv =>
      have inner : ∀ (l : List (PayloadVal × PayloadVal)), (∀ kv ∈ l, kv ∈ es) →
          ∀ (acc : List (PayloadVal × PayloadVal)) (q : Nat) (data : List Nat) (bk : Bool),
          (acc ++ l).Pairwise (fun a b => a.1 ≠ b.1) →
          slice data q (encEntries l q).length = encEntries l q →
          q + (encEntries l q).length ≤ data.length →
          unpackMapLoop (unpackVal kt) (unpackVal vt) l.length acc
              { backed := bk, data := data, m_ptr := q }
            = .ok (acc ++ l, { backed := bk, data := data,
                               m_ptr := q + (encEntries l q).length }) := by
        intro l
        induction l with
        | nil =>
            intro _ acc q data bk _ _ _
            simp [unpackMapLoop, encEntries]
        | cons kv rest ihl =>
            intro hsub acc q data bk hpw2 hslice hcap
            rw [encEntries] at hslice hcap ⊢
            simp only [List.length_append] at hslice hcap
            rw [show (encVal kv.1 q).length
                  + (encVal kv.2 (q + (encVal kv.1 q).length)).length
                = (encVal kv.1 q
                  ++ encVal kv.2 (q + (encVal kv.1 q).length)).length by
              simp [List.length_append]] at hslice
            have h12 := slice_append_left data _ _ q hslice
            have h3 := slice_append_right data _ _ q hslice
            rw [List.length_append] at h12
            have h1 := slice_append_left data _ _ q h12
            have h2 := slice_append_right data _ _ q h12
            have hs1 := ihk kv (hsub kv (List.mem_cons_self kv rest)) q data bk h1
              (by omega)
            have hs2 := ihv kv (hsub kv (List.mem_cons_self kv rest))
              (q + (encVal kv.1 q).length) data bk h2
              (by omega)
            have hfresh : ∀ a ∈ acc, a.1 ≠ kv.1 := by
              intro a ha
              exact (List.pairwise_append.mp hpw2).2.2 a ha kv
                (List.mem_cons_self kv rest)
            have hins : mapInsert acc kv.1 kv.2 = acc ++ [kv] := by
              rw [mapInsert_of_fresh acc kv.1 kv.2 hfresh]
            have hq3 : q + (encVal kv.1 q
                ++ encVal kv.2 (q + (encVal kv.1 q).length)).length
              = q + (encVal kv.1 q).length
                + (encVal kv.2 (q + (encVal kv.1 q).length)).length := by
              simp [List.length_append, Nat.add_assoc]
            rw [hq3] at h3
            have hpw3 : ((acc ++ [kv]) ++ rest).Pairwise (fun a b => a.1 ≠ b.1) := by
              rw [List.append_assoc]
              exact hpw2
            have hs3 := ihl (fun a ha => hsub a (List.mem_cons_of_mem kv ha))
              (acc ++ [kv])
              (q + (encVal kv.1 q).length
                + (encVal kv.2 (q + (encVal kv.1 q).length)).length)
              data bk hpw3 h3
              (by omega)
            simp only [List.length_cons, unpackMapLoop, bind, Except.bind,
              hs1, hs2, hins, hs3]
            simp [List.append_assoc, List.length_append, Nat.add_assoc]
      intro p data bk hslice hcap
      rw [encVal] at hslice hcap
      simp only [List.length_append, List.length_replicate, natToBytes_length]
        at hslice hcap
      have hE : (List.replicate (commBufferAlign 8 p) 0
          ++ natToBytes 8 es.length).length = commBufferAlign 8 p + 8 := by
        simp [natToBytes_length]
      rw [show commBufferAlign 8 p + 8
            + (encEntries es (p + (commBufferAlign 8 p + 8))).length
          = (List.replicate (commBufferAlign 8 p) 0
             ++ natToBytes 8 es.length).length
            + (encEntries es (p + (commBufferAlign 8 p + 8))).length by
        rw [hE]] at hslice
      have h1 := slice_append_left data _ _ p hslice
      have h2 := slice_append_right data _ _ p hslice
      rw [hE] at h1 h2
      rw [unpackVal]
      rw [unpack_block data p 8 (natToBytes 8 es.length) bk (natToBytes_length 8 _)
        h1 (by omega)]
      simp only [bind, Except.bind]
      rw [bytesToNat_natToBytes, show (256 : Nat) ^ 8 = 2 ^ 64 by norm_num,
        Nat.mod_eq_of_lt hlen]
      have hs := inner es (fun _ h => h) [] (p + (commBufferAlign 8 p + 8)) data bk
        (by simpa using hpw) h2 (by omega)
      rw [show es.length
          = (es : List (PayloadVal × PayloadVal)).length from rfl, hs]
      rw [encVal]
      simp [List.length_append, natToBytes_length, Nat.add_assoc]
  | @vec es t hlen he ihe =>
      have inner : ∀ (l : List PayloadVal), (∀ x ∈ l, x ∈ es) →
          ∀ (acc : List PayloadVal) (q : Nat) (data : List Nat) (bk : Bool),
          slice data q (encElems l q).length = encElems l q →
          q + (encElems l q).length ≤ data.length →
          unpackVecLoop (unpackVal t) l.length acc
              { backed := bk, data := data, m_ptr := q }
            = .ok (acc ++ l, { backed := bk, data := data,
                               m_ptr := q + (encElems l q).length }) := by
        intro l
        induction l with
        | nil =>
            intro _ acc q data bk _ _
            simp [unpackVecLoop, encElems]
        | cons x rest ihl =>
            intro hsub acc q data bk hslice hcap
            rw [encElems] at hslice hcap ⊢
            simp only [List.length_append] at hslice hcap
            have h1 := slice_append_left data _ _ q hslice
            have h2 := slice_append_right data _ _ q hslice
            have hs1 := ihe x (hsub x (List.mem_cons_self x rest)) q data bk h1
              (by omega)
            have hs2 := ihl (fun a ha => hsub a (List.mem_cons_of_mem x ha))
              (acc ++ [x]) (q + (encVal x q).length) data bk h2 (by omega)
            simp only [List.length_cons, unpackVecLoop, bind, Except.bind, hs1, hs2]
            simp [List.append_assoc, List.length_append, Nat.add_assoc]
      intro p data bk hslice hcap
      rw [encVal] at hslice hcap
      simp only [List.length_append, List.length_replicate, natToBytes_length]
        at hslice hcap
      have hE : (List.replicate (commBufferAlign 4 p) 0
          ++ natToBytes 4 es.length).length = commBufferAlign 4 p + 4 := by
        simp [natToBytes_length]
      rw [show commBufferAlign 4 p + 4
            + (encElems es (p + (commBufferAlign 4 p + 4))).length
          = (List.replicate (commBufferAlign 4 p) 0
             ++ natToBytes 4 es.length).length
            + (encElems es (p + (commBufferAlign 4 p + 4))).length by
        rw [hE]] at hslice
      have h1 := slice_append_left data _ _ p hslice
      have h2 := slice_append_right data _ _ p hslice
      rw [hE] at h1 h2
      rw [unpackVal]
      rw [unpack_block data p 4 (natToBytes 4 es.length) bk (natToBytes_length 4 _)
        h1 (by omega)]
      simp only [bind, Except.bind]
      rw [bytesToNat_natToBytes, show (256 : Nat) ^ 4 = 2 ^ 32 by norm_num,
        Nat.mod_eq_of_lt hlen]
      have hs := inner es (fun _ h => h) [] (p + (commBufferAlign 4 p + 4)) data bk
        h2 (by omega)
      rw [hs]
      rw [encVal]
      simp [List.length_append, natToBytes_length, Nat.add_assoc]

/-- Claim C1 amended: the round-trip law holds for every well-formed payload
value — fixed-size scalars, strings, pairs, keyed mappings and vectors,
including empty sequences/mappings and zero-length strings — where
well-formed (`WF`) bounds each element count by the fixed-width count field
the source packs it into (`size_t`, i.e. below `2^64`, for strings and
maps; `unsigned`, i.e. below `2^32`, for vectors).  A sizing pack pass from
a fresh unbacked buffer computes a size `n`; the transfer pack pass into a
buffer allocated to exactly `n` bytes succeeds and fills it exactly; after
`reset()`, unpacking from the fresh cursor yields a value equal to `v`. -/
theorem c1_roundtrip_amended (v : PayloadVal) (t : PayloadTy) (init : List Nat)
    (h : WF v t) (hinit : init.length = (encVal v 0).length) :
    packVal v (sizingBuf 0) = .ok (sizingBuf ((encVal v 0).length))
    ∧ packVal v { backed := true, data := init, m_ptr := 0 }
        = .ok { backed := true, data := encVal v 0, m_ptr := (encVal v 0).length }
    ∧ unpackVal t (CommBuffer.reset
        { backed := true, data := encVal v 0, m_ptr := (encVal v 0).length })
        = .ok (v, { backed := true, data := encVal v 0,
                    m_ptr := (encVal v 0).length }) := by
  refine ⟨?_, ?_, ?_⟩
  · have hs := packVal_sizing h 0
    simpa using hs
  · have ht := packVal_transfer h 0 init (by omega)
    rw [splice_all init (encVal v 0) hinit.symm] at ht
    simpa using ht
  · have hu := unpackVal_correct h 0 (encVal v 0) true
      (by simpa using slice_full (encVal v 0)) (by omega)
    simpa [CommBuffer.reset] using hu

/-- Claim C1 amended, witness: a two-entry map from 1-byte scalars to
pairs of a string and a vector of 1-byte scalars, one entry holding an
empty string and an empty vector. -/
theorem c1_roundtrip_amended_witness :
    (WF (.mapV [(.scalar [1], .pairV (.str [104, 105]) (.vec [.scalar [2], .scalar [3]])),
                (.scalar [9], .pairV (.str []) (.vec []))])
        (.mapT (.scalar 1) (.pairT .str (.vec (.scalar 1))))
      ∧ (List.replicate (encVal (.mapV [(.scalar [1],
            .pairV (.str [104, 105]) (.vec [.scalar [2], .scalar [3]])),
            (.scalar [9], .pairV (.str []) (.vec []))]) 0).length 0).length
        = (encVal (.mapV [(.scalar [1],
            .pairV (.str [104, 105]) (.vec [.scalar [2], .scalar [3]])),
            (.scalar [9], .pairV (.str []) (.vec []))]) 0).length)
    ∧ (packVal (.mapV [(.scalar [1],
          .pairV (.str [104, 105]) (.vec [.scalar [2], .scalar [3]])),
          (.scalar [9], .pairV (.str []) (.vec []))]) (sizingBuf 0)
        = .ok (sizingBuf ((encVal (.mapV [(.scalar [1],
            .pairV (.str [104, 105]) (.vec [.scalar [2], .scalar [3]])),
            (.scalar [9], .pairV (.str []) (.vec []))]) 0).length))
      ∧ packVal (.mapV [(.scalar [1],
          .pairV (.str [104, 105]) (.vec [.scalar [2], .scalar [3]])),
          (.scalar [9], .pairV (.str []) (.vec []))])
          { backed := true,
            data := List.replicate (encVal (.mapV [(.scalar [1],
              .pairV (.str [104, 105]) (.vec [.scalar [2], .scalar [3]])),
              (.scalar [9], .pairV (.str []) (.vec []))]) 0).length 0,
            m_ptr := 0 }
        = .ok { backed := true,
                data := encVal (.mapV [(.scalar [1],
                  .pairV (.str [104, 105]) (.vec [.scalar [2], .scalar [3]])),
                  (.scalar [9], .pairV (.str []) (.vec []))]) 0,
                m_ptr := (encVal (.mapV [(.scalar [1],
                  .pairV (.str [104, 105]) (.vec [.scalar [2], .scalar [3]])),
                  (.scalar [9], .pairV (.str []) (.vec []))]) 0).length }
      ∧ unpackVal (.mapT (.scalar 1) (.pairT .str (.vec (.scalar 1))))
          (CommBuffer.reset
            { backed := true,
              data := encVal (.mapV [(.scalar [1],
                .pairV (.str [104, 105]) (.vec [.scalar [2], .scalar [3]])),
                (.scalar [9], .pairV (.str []) (.vec []))]) 0,
              m_ptr := (encVal (.mapV [(.scalar [1],
                .pairV (.str [104, 105]) (.vec [.scalar [2], .scalar [3]])),
                (.scalar [9], .pairV (.str []) (.vec []))]) 0).length })
        = .ok (.mapV [(.scalar [1],
                .pairV (.str [104, 105]) (.vec [.scalar [2], .scalar [3]])),
                (.scalar [9], .pairV (.str []) (.vec []))],
              { backed := true,
                data := encVal (.mapV [(.scalar [1],
                  .pairV (.str [104, 105]) (.vec [.scalar [2], .scalar [3]])),
                  (.scalar [9], .pairV (.str []) (.vec []))]) 0,
                m_ptr := (encVal (.mapV [(.scalar [1],
                  .pairV (.str [104, 105]) (.vec [.scalar [2], .scalar [3]])),
                  (.scalar [9], .pairV (.str []) (.vec []))]) 0).length })) := by
  have hwf : WF (.mapV [(.scalar [1],
        .pairV (.str [104, 105]) (.vec [.scalar [2], .scalar [3]])),
        (.scalar [9], .pairV (.str []) (.vec []))])
      (.mapT (.scalar 1) (.pairT .str (.vec (.scalar 1)))) := by
    refine WF.mapV (by decide) ?_ ?_ ?_
    · intro kv hkv
      rcases List.mem_cons.mp hkv with rfl | hkv
      · exact WF.scalar rfl (by decide)
      rcases List.mem_cons.mp hkv with rfl | hkv
      · exact WF.scalar rfl (by decide)
      · cases hkv
    · intro kv hkv
      rcases List.mem_cons.mp hkv with rfl | hkv
      · refine WF.pairV (WF.str (by decide)) (WF.vec (by decide) ?_)
        intro x hx
        rcases List.mem_cons.mp hx with rfl | hx
        · exact WF.scalar rfl (by decide)
        rcases List.mem_cons.mp hx with rfl | hx
        · exact WF.scalar rfl (by decide)
        · cases hx
      rcases List.mem_cons.mp hkv with rfl | hkv
      · refine WF.pairV (WF.str (by decide)) (WF.vec (by decide) ?_)
        intro x hx
        cases hx
      · cases hkv
    · refine List.Pairwise.cons ?_ (List.Pairwise.cons ?_ List.Pairwise.nil)
      · intro b hb
        rcases List.mem_cons.mp hb with rfl | hb
        · simp
        · cases hb
      · intro b hb
        cases hb
  have hlen : (List.replicate (encVal (.mapV [(.scalar [1],
        .pairV (.str [104, 105]) (.vec [.scalar [2], .scalar [3]])),
        (.scalar [9], .pairV (.str []) (.vec []))]) 0).length 0).length
      = (encVal (.mapV [(.scalar [1],
        .pairV (.str [104, 105]) (.vec [.scalar [2], .scalar [3]])),
        (.scalar [9], .pairV (.str []) (.vec []))]) 0).length := by
    simp
  exact ⟨⟨hwf, hlen⟩, c1_roundtrip_amended _ _ _ hwf hlen⟩

theorem splice_replicate_zero (L p k : Nat) (h : p + k ≤ L) :
    splice (List.replicate L (0 : Nat)) p (List.replicate k 0) = List.replicate L 0 := by
  unfold splice
  rw [List.take_replicate, List.drop_replicate, List.length_replicate]
  rw [← List.replicate_add, ← List.replicate_add]
  congr 1
  omega

theorem packElems_sizing_replicate0 : ∀ (n p : Nat),
    packElems (List.replicate n (.scalar [0])) (sizingBuf p) = .ok (sizingBuf (p + n)) := by
  intro n
  induction n with
  | zero => intro p; simp [packElems]
  | succ n ih =>
      intro p
      rw [List.replicate_succ, packElems]
      have h1 : packVal (.scalar [0]) (sizingBuf p) = .ok (sizingBuf (p + 1)) := by
        rw [packVal, pack_sizing]
        simp [commBufferAlign_one]
      simp only [bind, Except.bind, h1, ih]
      congr 2
      omega

theorem packElems_transfer_replicate0 : ∀ (n p L : Nat), p + n ≤ L →
    packElems (List.replicate n (.scalar [0]))
        { backed := true, data := List.replicate L 0, m_ptr := p }
      = .ok { backed := true, data := List.replicate L 0, m_ptr := p + n } := by
  intro n
  induction n with
  | zero => intro p L h; simp [packElems]
  | succ n ih =>
      intro p L h
      rw [List.replicate_succ, packElems]
      have h1 : packVal (.scalar [0])
          { backed := true, data := List.replicate L 0, m_ptr := p }
          = .ok { backed := true, data := List.replicate L 0, m_ptr := p + 1 } := by
        rw [packVal, pack_transfer p [0] (List.replicate L 0)
          (by simp [commBufferAlign_one]; omega)]
        rw [show List.replicate (commBufferAlign [0].length p) (0 : Nat) ++ [0]
            = List.replicate 1 0 by simp [commBufferAlign_one]]
        rw [splice_replicate_zero L p 1 (by omega)]
        simp [commBufferAlign_one]
      simp only [bind, Except.bind, h1, ih (p + 1) L (by omega)]
      congr 2
      omega

theorem natToBytes_mul_pow (w : Nat) : ∀ m, natToBytes w (256 ^ w * m) = List.replicate w 0 := by
  induction w with
  | zero => intro m; rfl
  | succ w ih =>
      intro m
      rw [natToBytes, List.replicate_succ]
      have hk : 256 ^ (w + 1) * m = 256 * (256 ^ w * m) := by ring
      rw [hk, Nat.mul_mod_right, Nat.mul_div_cancel_left _ (by norm_num : (0:Nat) < 256), ih]

/-- Sizing pass of a vector of `k` one-byte zero scalars: 4 count bytes plus
`k` element bytes. -/
theorem packVal_vec0_sizing (k : Nat) :
    packVal (.vec (List.replicate k (.scalar [0]))) (sizingBuf 0)
      = .ok (sizingBuf (4 + k)) := by
  rw [packVal, List.length_replicate, pack_sizing, natToBytes_length,
    show commBufferAlign 4 0 = 0 from rfl]
  simp only [Nat.zero_add, bind, Except.bind]
  rw [packElems_sizing_replicate0 k 4]

/-- Transfer pass of a vector of `k` one-byte zero scalars, `k` a multiple
of `2^32 = 256^4`: the truncated count word is all zero bytes, so the
all-zero buffer is written back unchanged. -/
theorem packVal_vec0_transfer (k m : Nat) (hk : k = 256 ^ 4 * m) :
    packVal (.vec (List.replicate k (.scalar [0])))
        { backed := true, data := List.replicate (4 + k) 0, m_ptr := 0 }
      = .ok { backed := true, data := List.replicate (4 + k) 0, m_ptr := 4 + k } := by
  rw [packVal, List.length_replicate]
  rw [pack_transfer 0 (natToBytes 4 k) (List.replicate (4 + k) 0)
    (by rw [natToBytes_length, List.length_replicate,
          show commBufferAlign 4 0 = 0 from rfl]; omega)]
  rw [natToBytes_length, show commBufferAlign 4 0 = 0 from rfl]
  rw [show List.replicate 0 (0 : Nat) ++ natToBytes 4 k = natToBytes 4 k from by
    rw [List.replicate_zero, List.nil_append]]
  rw [hk, natToBytes_mul_pow]
  rw [splice_replicate_zero (4 + 256 ^ 4 * m) 0 4 (by omega)]
  simp only [Nat.zero_add, bind, Except.bind]
  rw [packElems_transfer_replicate0 (256 ^ 4 * m) 4 (4 + 256 ^ 4 * m) (by omega)]

/-- Unpacking a vector of 1-byte scalars from an all-zero buffer: the count
word reads back 0, so the result is the empty vector. -/
theorem unpackVal_vec0 (n : Nat) :
    unpackVal (.vec (.scalar 1))
        { backed := true, data := List.replicate (4 + n) 0, m_ptr := 0 }
      = .ok (.vec [], { backed := true, data := List.replicate (4 + n) 0,
                        m_ptr := 4 }) := by
  rw [unpackVal]
  rw [unpack_block (List.replicate (4 + n) 0) 0 4 (List.replicate 4 0) true rfl
    (by
      rw [show commBufferAlign 4 0 = 0 from rfl]
      simp only [List.replicate_zero, List.nil_append, Nat.zero_add]
      unfold slice
      rw [List.drop_zero, List.take_replicate]
      congr 1
      omega)
    (by rw [show commBufferAlign 4 0 = 0 from rfl, List.length_replicate]; omega)]
  simp only [bind, Except.bind]
  rw [show bytesToNat (List.replicate 4 0) = 0 from rfl,
    show commBufferAlign 4 0 = 0 from rfl]
  simp [unpackVecLoop]

/-- Claim C1 counterexample: the claim quantifies over every value of a
supported payload type; a `std::vector` holding `2^32` one-byte scalars is
such a value.  The source packs a vector's element count as a 4-byte
`unsigned` (`pack<unsigned>(value.size())`), truncating `2^32` to `0`.
Sizing and transfer passes succeed — packing a zero count word followed by
all `2^32` element bytes — but unpacking from the reset cursor reads back
count `0` and returns the empty vector, which is not equal to `v`. -/
theorem c1_roundtrip_counterexample :
    packVal (.vec (List.replicate (2 ^ 32) (.scalar [0]))) (sizingBuf 0)
      = .ok (sizingBuf (4 + 2 ^ 32))
    ∧ packVal (.vec (List.replicate (2 ^ 32) (.scalar [0])))
        { backed := true, data := List.replicate (4 + 2 ^ 32) 0, m_ptr := 0 }
      = .ok { backed := true, data := List.replicate (4 + 2 ^ 32) 0,
              m_ptr := 4 + 2 ^ 32 }
    ∧ unpackVal (.vec (.scalar 1)) (CommBuffer.reset
        { backed := true, data := List.replicate (4 + 2 ^ 32) 0,
          m_ptr := 4 + 2 ^ 32 })
      = .ok (.vec [], { backed := true, data := List.replicate (4 + 2 ^ 32) 0,
                        m_ptr := 4 })
    ∧ PayloadVal.vec [] ≠ .vec (List.replicate (2 ^ 32) (.scalar [0])) := by
  refine ⟨packVal_vec0_sizing (2 ^ 32),
    packVal_vec0_transfer (2 ^ 32) 1 (by norm_num), ?_, ?_⟩
  · have hreset : CommBuffer.reset
        ⟨true, List.replicate (4 + 2 ^ 32) 0, 4 + 2 ^ 32⟩
      = ⟨true, List.replicate (4 + 2 ^ 32) 0, 0⟩ := rfl
    rw [hreset]
    exact unpackVal_vec0 (2 ^ 32)
  · intro hcontra
    injection hcontra with h2
    have hlen2 := congrArg List.length h2
    simp only [List.length_nil, List.length_replicate] at hlen2
    exact absurd hlen2 (by norm_num)

end ParallelComm
